import Mathlib

/-!
Verification of the solsolver core (src/solsolver/src/main.rs), a tarot-deck
patience solver.  The Rust source is shallowly embedded below: every `Vec`
that the game uses as a stack (push/pop/last at the back) is modelled as a
Lean `List` whose HEAD is the top of the stack, so `push c` is `c :: ·`,
`pop` takes the tail, and `last()` is `head?`.  Fallible Rust operations
(`unwrap` on `Option`, panics in parsers) are modelled with `Option`:
a `none` result marks a run that would panic.  The cascade resolver's
`while changed` loop is run on explicit fuel `measureB b + 1`; every pass
that reports a change moves at least one card out of the playing area or
the holding slot into a foundation, so this fuel is enough for the loop to
reach its fixpoint (a `none` from fuel exhaustion cannot actually occur,
and all theorems about the resolver are conditioned on a `some` result,
which reproduces exactly the terminating Rust run).
-/

namespace Solsolver

/-- Minor (suited) rank, 1 = ace .. 13 = king.  Rust `struct MinorValue(u8)`. -/
structure MinorValue where
  val : Nat
deriving DecidableEq, Repr

/-- Major (trump) rank, 0..21.  Rust `struct MajorValue(u8)`. -/
structure MajorValue where
  val : Nat
deriving DecidableEq, Repr

/-- Rust `enum Suit`. -/
inductive Suit where
  | Sword
  | Wand
  | Cup
  | Star
deriving DecidableEq, Repr

/-- Rust `enum Card`. -/
inductive Card where
  | Major (value : MajorValue)
  | Minor (suit : Suit) (value : MinorValue)
deriving DecidableEq, Repr

/-!  Text handling is modelled on `List Char` (structural recursion, unlike
the string primitives) and `Board.parse` enters through `String.data`. -/

/-- Split a character list at every occurrence of `sep`; like Rust
`str::split` with a one-character pattern, the result is never empty and
keeps empty segments. -/
def splitOnChar (sep : Char) : List Char → List (List Char)
  | [] => [[]]
  | c :: cs =>
    let r := splitOnChar sep cs
    if c = sep then [] :: r else (c :: r.headD []) :: r.tail

/-- Rust `MinorValue::parse`; the catch-all arm panics, modelled by `none`. -/
def MinorValue.parse (s : List Char) : Option MinorValue :=
  if s = ['A'] then some ⟨1⟩
  else if s = ['2'] then some ⟨2⟩
  else if s = ['3'] then some ⟨3⟩
  else if s = ['4'] then some ⟨4⟩
  else if s = ['5'] then some ⟨5⟩
  else if s = ['6'] then some ⟨6⟩
  else if s = ['7'] then some ⟨7⟩
  else if s = ['8'] then some ⟨8⟩
  else if s = ['9'] then some ⟨9⟩
  else if s = ['1', '0'] then some ⟨10⟩
  else if s = ['J'] then some ⟨11⟩
  else if s = ['Q'] then some ⟨12⟩
  else if s = ['K'] then some ⟨13⟩
  else none

/-- Rust `MajorValue::parse`, i.e. `s.parse::<u8>().unwrap()`: an optional
leading plus sign, then a non-empty run of decimal digits whose value fits in
a `u8`; anything else panics (`none`). -/
def MajorValue.parse (s : List Char) : Option MajorValue :=
  let digits := match s with
    | c :: rest => if c = '+' then rest else s
    | [] => s
  if digits ≠ [] ∧ digits.all Char.isDigit then
    let n := digits.foldl (fun a c => a * 10 + (c.toNat - 48)) 0
    if n ≤ 255 then some ⟨n⟩ else none
  else none

/-- Rust `Suit::parse`; the catch-all arm panics, modelled by `none`. -/
def Suit.parse (s : List Char) : Option Suit :=
  if s = ['S', 'W', 'O'] then some Suit.Sword
  else if s = ['W', 'A', 'N'] then some Suit.Wand
  else if s = ['C', 'U', 'P'] then some Suit.Cup
  else if s = ['S', 'T', 'A'] then some Suit.Star
  else none

/-- Rust `Card::parse`: split on an underscore; the first piece is the value,
the second the suit; a missing second piece makes `split.next().unwrap()` panic. -/
def Card.parse (s : List Char) : Option Card :=
  match splitOnChar '_' s with
  | value :: suit :: _ =>
    if suit = ['M', 'A', 'J'] then
      (MajorValue.parse value).map Card.Major
    else
      match Suit.parse suit with
      | none => none
      | some su =>
        match MinorValue.parse value with
        | none => none
        | some v => some (Card.Minor su v)
  | _ => none

/-- Rust `Card::is_next_card`: `next_card` is one rank above `self`, same domain. -/
def Card.is_next_card (a next_card : Card) : Bool :=
  match a, next_card with
  | Card.Major x, Card.Major y => decide (x.val + 1 = y.val)
  | Card.Minor s x, Card.Minor t y => decide (s = t ∧ x.val + 1 = y.val)
  | _, _ => false

/-- Rust `Card::is_prev_card`: `prev_card` is one rank below `self`, same domain. -/
def Card.is_prev_card (a prev_card : Card) : Bool :=
  match a, prev_card with
  | Card.Major x, Card.Major y => decide (x.val = y.val + 1)
  | Card.Minor s x, Card.Minor t y => decide (s = t ∧ x.val = y.val + 1)
  | _, _ => false

/-- Rust `Card::is_next_or_prev`. -/
def Card.is_next_or_prev (a other : Card) : Bool :=
  a.is_next_card other || a.is_prev_card other

/-- Rust `enum MoveLocation`. -/
inductive MoveLocation where
  | BlockMinorPiles
  | PlayingArea (pile : Nat) (depth : Nat)
deriving DecidableEq, Repr

/-- Rust `struct Move` (the Rust fields `from`/`to` are Lean keywords, hence
the trailing underscores). -/
structure Move where
  from_ : MoveLocation
  to_ : MoveLocation
  card : Card
  num_sucks : Nat
deriving DecidableEq, Repr

def NUM_PLAYING_STACKS : Nat := 11

def NUM_SUITS : Nat := 4

/-- Rust `struct Board`.  Each stack list has its top at the head. -/
structure Board where
  major_lower_stack : List Card
  major_higher_stack : List Card
  minor_collection_piles : List (List Card)
  minor_collection_blocked : Option Card
  playing_area : List (List Card)
  last_n_moves : List Move
deriving DecidableEq, Repr

/-- Rust `const OLD`: sentinel meaning "no history window / never prune". -/
def OLD : Nat := 0

def NUM_PREV_MOVES_TO_CONSIDERS : List Nat := [5, 10, 15, OLD]

/-- Rust `const_max`. -/
def const_max (ns : List Nat) : Nat := ns.foldl Nat.max 0

def MAX_NUM_PREV_MOVES_TO_CONSIDER : Nat := const_max NUM_PREV_MOVES_TO_CONSIDERS

/-- Rust `Board::with_prev_move`: push the move at the front of the history,
dropping the oldest entry when the bounded window overflows. -/
def Board.with_prev_move (b : Board) (prev_move : Move) : Board :=
  let l := prev_move :: b.last_n_moves
  { b with last_n_moves := if MAX_NUM_PREV_MOVES_TO_CONSIDER < l.length then l.dropLast else l }

/-- Rust `Board::is_done`: every playing-area pile is empty. -/
def Board.is_done (b : Board) : Bool :=
  b.playing_area.all (fun pile => pile.isEmpty)

/-- `Option`-valued `List.map`; `none` as soon as `f` fails (a Rust panic). -/
def mapOpt {α β : Type} (f : α → Option β) : List α → Option (List β)
  | [] => some []
  | x :: xs =>
    match f x with
    | none => none
    | some y =>
      match mapOpt f xs with
      | none => none
      | some ys => some (y :: ys)

/-- `Option`-valued left fold; `none` as soon as `f` fails (a Rust panic). -/
def foldOpt {σ α : Type} (f : σ → α → Option σ) : σ → List α → Option σ
  | s, [] => some s
  | s, x :: xs =>
    match f s x with
    | none => none
    | some s1 => foldOpt f s1 xs

/-- Rust array indexing `v[i]` on a list of piles.  Out of range yields `[]`,
which cannot happen for the fixed-size arrays of the source; a plain `def`
keeps the indexing opaque to `simp`. -/
def getP (ls : List (List Card)) (i : Nat) : List Card := ls.getD i []

/-- Rust array indexing on the snapshot of exposed cards. -/
def getT (tops : List (Option Card)) (i : Nat) : Option Card := tops.getD i none

/-- Strip one trailing carriage return (Rust `lines` strips `\r\n` endings). -/
def stripCR (l : List Char) : List Char :=
  if l.getLast? = some '\r' then l.dropLast else l

/-- Model of Rust `str::lines`: split at newlines, strip a `\r` that preceded a
`\n`, and do not yield a final empty line produced by a trailing line ending. -/
def rustLines (s : List Char) : List (List Char) :=
  let parts := splitOnChar '\n' s
  let ls := parts.dropLast.map stripCR ++ (match parts.getLast? with
    | some t => [t]
    | none => [])
  if ls.getLast? = some [] then ls.dropLast else ls

/-- Model of Rust `str::split_terminator`: like `split`, but a trailing empty
piece is skipped. -/
def splitTerminator (sep : Char) (s : List Char) : List (List Char) :=
  let parts := splitOnChar sep s
  if parts.getLast? = some [] then parts.dropLast else parts

/-- Rust `str::trim`: drop whitespace from both ends. -/
def trimChars (l : List Char) : List Char :=
  ((l.dropWhile Char.isWhitespace).reverse.dropWhile Char.isWhitespace).reverse

/-- One line of the deal: trim, split on commas, parse each token.  The tokens
are pushed onto the pile in file order, so the resulting pile (top at the head)
is the reverse of the token list. -/
def parseLine (line : List Char) : Option (List Card) :=
  mapOpt Card.parse (splitTerminator ',' (trimChars line))

/-- Rust `Board::parse`: `s.lines().zip(playing_area.iter_mut())` fills the
`i`-th pile from the `i`-th line (blank lines included — a blank line simply
yields an empty pile at its own index); lines beyond the 11th are dropped and
missing lines leave their piles empty.  Each suit foundation starts with its
ace; `none` models the parsing panics for malformed tokens. -/
def Board.parse (s : String) : Option Board :=
  let ls := rustLines s.data
  match mapOpt parseLine (ls.take NUM_PLAYING_STACKS) with
  | none => none
  | some toks =>
    some {
      major_lower_stack := [],
      major_higher_stack := [],
      minor_collection_piles :=
        [[Card.Minor Suit.Sword ⟨1⟩],
         [Card.Minor Suit.Wand ⟨1⟩],
         [Card.Minor Suit.Cup ⟨1⟩],
         [Card.Minor Suit.Star ⟨1⟩]],
      minor_collection_blocked := none,
      playing_area := toks.map List.reverse ++ List.replicate (NUM_PLAYING_STACKS - toks.length) [],
      last_n_moves := [] }

/-! ### The cascade resolver (`Board::suck_readies_into_receptacles`)

The resolver's state inside one invocation is the board, the accumulated list
of sucked cards, and the `changed` flag of the current pass. -/

abbrev SuckAcc := Board × List Card × Bool

/-- `self.major_lower_stack.last().map(|card| card.is_next_card(c)).unwrap_or(false)`. -/
def lowerTopReady (b : Board) (c : Card) : Bool :=
  (b.major_lower_stack.head?).elim false (fun t => t.is_next_card c)

/-- `self.major_higher_stack.last().map(|card| card.is_prev_card(c)).unwrap_or(false)`. -/
def higherTopReady (b : Board) (c : Card) : Bool :=
  (b.major_higher_stack.head?).elim false (fun t => t.is_prev_card c)

/-- One iteration of the `for minor_collection_pile in ...iter_mut()` loop at
pile index `j`, while the exposed card of playing pile `i` was `lc` at the
start of the pass.  `minor_collection_pile.last().unwrap()` and
`playing_area[i].pop().unwrap()` panic (= `none`) on empty lists. -/
def minorStep (lc : Card) (i : Nat) (s : SuckAcc) (j : Nat) : Option SuckAcc :=
  match (getP s.1.minor_collection_piles j).head? with
  | none => none
  | some mt =>
    if mt.is_next_card lc then
      match getP s.1.playing_area i with
      | [] => none
      | card :: rest =>
        some ({ s.1 with
                  playing_area := s.1.playing_area.set i rest,
                  minor_collection_piles :=
                    s.1.minor_collection_piles.set j
                      (card :: getP s.1.minor_collection_piles j) },
              s.2.1 ++ [card], true)
    else some s

/-- The two `major` suck attempts for playing pile `i` whose exposed card at
the start of the pass was `lc`: first the ascending stack (which also accepts
major 0 when empty), else the descending stack (which also accepts major 21
when empty). -/
def majorStep (lc : Card) (i : Nat) (s : SuckAcc) : Option SuckAcc :=
  if lowerTopReady s.1 lc = true ∨ (s.1.major_lower_stack = [] ∧ lc = Card.Major ⟨0⟩) then
    match getP s.1.playing_area i with
    | [] => none
    | card :: rest =>
      some ({ s.1 with
                playing_area := s.1.playing_area.set i rest,
                major_lower_stack := card :: s.1.major_lower_stack },
            s.2.1 ++ [card], true)
  else if higherTopReady s.1 lc = true ∨ (s.1.major_higher_stack = [] ∧ lc = Card.Major ⟨21⟩) then
    match getP s.1.playing_area i with
    | [] => none
    | card :: rest =>
      some ({ s.1 with
                playing_area := s.1.playing_area.set i rest,
                major_higher_stack := card :: s.1.major_higher_stack },
            s.2.1 ++ [card], true)
  else some s

/-- The body of the pass for playing pile `i`: skip if the pile was empty at
the start of the pass; otherwise try the four suit foundations (only when the
holding slot is free) and then the two trump foundations. -/
def pileStep (tops : List (Option Card)) (s : SuckAcc) (i : Nat) : Option SuckAcc :=
  match getT tops i with
  | none => some s
  | some lc =>
    match (if s.1.minor_collection_blocked = none
           then foldOpt (minorStep lc i) s [0, 1, 2, 3]
           else some s) with
    | none => none
    | some s1 => majorStep lc i s1

/-- The `if let Some(blocking_card) = self.minor_collection_blocked` block at
the end of each pass: the held card is checked only against the two trump
stacks (no suit-foundation check and no empty-stack bootstrap); when it
advances, the holding slot is cleared. -/
def heldStep (s : SuckAcc) : SuckAcc :=
  match s.1.minor_collection_blocked with
  | none => s
  | some bc =>
    if lowerTopReady s.1 bc = true then
      ({ s.1 with
           major_lower_stack := bc :: s.1.major_lower_stack,
           minor_collection_blocked := none },
       s.2.1 ++ [bc], true)
    else if higherTopReady s.1 bc = true then
      ({ s.1 with
           major_higher_stack := bc :: s.1.major_higher_stack,
           minor_collection_blocked := none },
       s.2.1 ++ [bc], true)
    else s

/-- One full pass of the `while changed` loop: snapshot the exposed card of
every pile (`last_card_of_every_stack_mut`), visit the piles in order, then
the held card. -/
def suckPass (b : Board) (acc : List Card) : Option SuckAcc :=
  match foldOpt (pileStep (b.playing_area.map List.head?)) (b, acc, false)
          (List.range b.playing_area.length) with
  | none => none
  | some s => some (heldStep s)

/-- Cards outside the foundations: total playing-area size plus the held card.
Every pass that reports a change moves at least one of them into a foundation,
so this bounds the number of changing passes of the resolver loop. -/
def measureB (b : Board) : Nat :=
  (b.playing_area.map List.length).sum + (if b.minor_collection_blocked.isSome then 1 else 0)

/-- The `while changed` loop, on fuel: run a pass; repeat while it changed. -/
def suckFuel : Nat → Board → List Card → Option (Board × List Card)
  | 0, _, _ => none
  | fuel + 1, b, acc =>
    match suckPass b acc with
    | none => none
    | some s => if s.2.2 = true then suckFuel fuel s.1 s.2.1 else some (s.1, s.2.1)

/-- Rust `Board::suck_readies_into_receptacles`: repeat full passes until one
pass makes no change; returns the final board and the ordered sucked cards. -/
def Board.suck_readies_into_receptacles (b : Board) : Option (Board × List Card) :=
  suckFuel (measureB b + 1) b []

/-! ### The move generator (`Board::next_boards`) -/

def MINIMUM_AMT_OF_PROGRESS : Nat := 1

/-- The "block" (hold) move of `next_boards`: pop the exposed card of pile
`src` into the holding slot, cascade, and record the move.  The depths in the
move record are read off the original board. -/
def mkHold (b : Board) (src : Nat) : Option (Board × Move) :=
  match getP b.playing_area src with
  | [] => none
  | card :: rest =>
    let b1 := { b with
                  playing_area := b.playing_area.set src rest,
                  minor_collection_blocked := some card }
    match b1.suck_readies_into_receptacles with
    | none => none
    | some r =>
      let moov : Move := {
        from_ := MoveLocation.PlayingArea src ((getP b.playing_area src).length - 1),
        to_ := MoveLocation.BlockMinorPiles,
        card := card,
        num_sucks := r.2.length }
      some ((r.1).with_prev_move moov, moov)

/-- The pile-to-pile move of `next_boards`: pop the exposed card of pile `src`
onto pile `dst`, cascade, and record the move. -/
def mkPileToPile (b : Board) (src dst : Nat) : Option (Board × Move) :=
  match getP b.playing_area src with
  | [] => none
  | card :: rest =>
    let pa1 := b.playing_area.set src rest
    let b1 := { b with playing_area := pa1.set dst (card :: getP pa1 dst) }
    match b1.suck_readies_into_receptacles with
    | none => none
    | some r =>
      let moov : Move := {
        from_ := MoveLocation.PlayingArea src ((getP b.playing_area src).length - 1),
        to_ := MoveLocation.PlayingArea dst (getP b.playing_area dst).length,
        card := card,
        num_sucks := r.2.length }
      some ((r.1).with_prev_move moov, moov)

/-- One iteration of the destination loop for source pile `src` with exposed
card `src_card`: skip `dst = src`, skip the non-progress move of a lone card
to an empty pile, and otherwise require `dst` empty or its exposed card
adjacent to `src_card`. -/
def perDst (b : Board) (src : Nat) (src_card : Card) (dst : Nat) : Option (List (Board × Move)) :=
  if dst = src then some []
  else if (getP b.playing_area src).length = 1 ∧ getP b.playing_area dst = [] then some []
  else if getP b.playing_area dst = []
          ∨ ((getP b.playing_area dst).head?).elim false
              (fun d => d.is_next_or_prev src_card) = true then
    match mkPileToPile b src dst with
    | none => none
    | some r => some [r]
  else some []

/-- The body of `next_boards` for source pile `src`.  When the holding slot is
free and the pile has exactly one card, the Rust code `continue`s the source
loop, so NO move at all (neither hold nor pile-to-pile) is generated from that
pile; the hold move is produced first, then the destinations in order. -/
def perSrc (b : Board) (src : Nat) : Option (List (Board × Move)) :=
  match (getP b.playing_area src).head? with
  | none => some []
  | some src_card =>
    if b.minor_collection_blocked = none then
      if (getP b.playing_area src).length = 1 then some []
      else
        match mkHold b src with
        | none => none
        | some h =>
          match mapOpt (perDst b src src_card) (List.range b.playing_area.length) with
          | none => none
          | some ds => some (h :: ds.flatten)
    else
      match mapOpt (perDst b src src_card) (List.range b.playing_area.length) with
      | none => none
      | some ds => some ds.flatten

/-- The release move of `next_boards`: drop the held card onto pile `dst`,
cascade, and record the move. -/
def mkRelease (b : Board) (card : Card) (dst : Nat) : Option (Board × Move) :=
  let b1 := { b with
                minor_collection_blocked := none,
                playing_area := b.playing_area.set dst (card :: getP b.playing_area dst) }
  match b1.suck_readies_into_receptacles with
  | none => none
  | some r =>
    let moov : Move := {
      from_ := MoveLocation.BlockMinorPiles,
      to_ := MoveLocation.PlayingArea dst (getP b.playing_area dst).length,
      card := card,
      num_sucks := r.2.length }
    some ((r.1).with_prev_move moov, moov)

/-- One iteration of the "unblock the minor collection piles" loop. -/
def perRelease (b : Board) (card : Card) (dst : Nat) : Option (List (Board × Move)) :=
  if getP b.playing_area dst = []
     ∨ ((getP b.playing_area dst).head?).elim false
         (fun d => d.is_next_or_prev card) = true then
    match mkRelease b card dst with
    | none => none
    | some r => some [r]
  else some []

/-- Everything `next_boards` generates after the stagnation cutoff: the
per-source moves in pile order, then the release moves of the held card. -/
def genBoards (b : Board) : Option (List (Board × Move)) :=
  match mapOpt (perSrc b) (List.range b.playing_area.length) with
  | none => none
  | some srcs =>
    match (match b.minor_collection_blocked with
           | none => some []
           | some card => mapOpt (perRelease b card) (List.range b.playing_area.length)) with
    | none => none
    | some rels => some (srcs.flatten ++ rels.flatten)

/-- Rust `Board::next_boards`: the stagnation cutoff (a finite window `n`,
at least `n` recorded moves, and at most `MINIMUM_AMT_OF_PROGRESS` sucked
cards over the `n` most recent of them) returns no successors at all;
otherwise generate all moves. -/
def Board.next_boards (b : Board) (num_prev_moves_to_consider : Nat) :
    Option (List (Board × Move)) :=
  if num_prev_moves_to_consider ≠ OLD
     ∧ num_prev_moves_to_consider ≤ b.last_n_moves.length
     ∧ ((b.last_n_moves.take num_prev_moves_to_consider).map Move.num_sucks).sum
         ≤ MINIMUM_AMT_OF_PROGRESS then
    some []
  else genBoards b

/-! ### The variant race of `main`

`main` runs one `astar` search per entry of `NUM_PREV_MOVES_TO_CONSIDERS`
(the `astar` library function returns `Option` of a path), `filter_map`s the
successes and takes `min_by_key(|path| path.len()).unwrap()`.  The search
itself is an external library call; only the aggregation is modelled.  The
final `unwrap` panics when every variant failed; `Except.error ()` marks that
panic. -/

/-- Rust `Iterator::min_by_key` on the path length: the first minimum wins. -/
def minByLen {α : Type} (l : List (List α)) : Option (List α) :=
  l.foldl (fun best p =>
    match best with
    | none => some p
    | some q => if p.length < q.length then some p else some q) none

/-- The `filter_map(...).min_by_key(|path| path.len())` of `main` over the
per-variant results. -/
def raceSelect {α : Type} (results : List (Option (List α))) : Option (List α) :=
  minByLen (results.filterMap id)

/-- `main`'s outcome given the per-variant search results: the winning path,
or the panic of `.unwrap()` on `None` when every variant failed. -/
def mainOutcome (α : Type) (results : List (Option (List α))) : Except Unit (List α) :=
  match raceSelect results with
  | some p => Except.ok p
  | none => Except.error ()

/-! ### Reachability

Boards reachable from a start board by cascade resolutions and generated
moves (with any history-window configuration). -/

inductive Reachable (b0 : Board) : Board → Prop where
  | base : Reachable b0 b0
  | suckStep {b b' : Board} {cs : List Card} :
      Reachable b0 b → b.suck_readies_into_receptacles = some (b', cs) → Reachable b0 b'
  | moveStep {b b' : Board} {n : Nat} {l : List (Board × Move)} {m : Move} :
      Reachable b0 b → b.next_boards n = some l → (b', m) ∈ l → Reachable b0 b'

/-- The total multiset of a list of piles. -/
def pilesMS (ls : List (List Card)) : Multiset Card :=
  (ls.map Multiset.ofList).sum

/-- The contribution of the holding slot. -/
def slotMS : Option Card → Multiset Card
  | none => 0
  | some c => {c}

/-- The multiset of all cards on a board: playing area, the four suit
foundations, both trump stacks and the held card. -/
def cardMS (b : Board) : Multiset Card :=
  pilesMS b.playing_area + pilesMS b.minor_collection_piles
    + Multiset.ofList b.major_lower_stack
    + Multiset.ofList b.major_higher_stack
    + slotMS b.minor_collection_blocked

/-- The suit stored at index `j` of `minor_collection_piles` by `Board::parse`. -/
def SuitAt (j : Nat) : Suit :=
  match j with
  | 0 => Suit.Sword
  | 1 => Suit.Wand
  | 2 => Suit.Cup
  | _ => Suit.Star

/-- The ace seeded at the bottom of suit foundation `j`. -/
def aceAt (j : Nat) : Card := Card.Minor (SuitAt j) ⟨1⟩

/-- The suit foundations are exactly four piles, and pile `j` still has the
ace of its suit at the bottom (in particular it is non-empty). -/
def InvAces (b : Board) : Prop :=
  b.minor_collection_piles.length = 4 ∧
    ∀ j, j < 4 → (getP b.minor_collection_piles j).getLast? = some (aceAt j)

/-! ### Concrete boards used as counterexamples and witnesses -/

/-- The four freshly seeded suit foundations. -/
def acesMinors : List (List Card) :=
  [[Card.Minor Suit.Sword ⟨1⟩], [Card.Minor Suit.Wand ⟨1⟩],
   [Card.Minor Suit.Cup ⟨1⟩], [Card.Minor Suit.Star ⟨1⟩]]

/-- Board builder for examples: the given piles padded to 11, fresh
foundations unless overridden. -/
def mkBoard (piles : List (List Card)) (blocked : Option Card)
    (lower : List Card) (hist : List Move) : Board :=
  { major_lower_stack := lower,
    major_higher_stack := [],
    minor_collection_piles := acesMinors,
    minor_collection_blocked := blocked,
    playing_area := piles ++ List.replicate (NUM_PLAYING_STACKS - piles.length) [],
    last_n_moves := hist }

/-- Holding slot occupied by the 2 of Swords while the Sword foundation shows
its ace: the spec would advance the held card into the suit foundation. -/
def heldTwoBoard : Board :=
  mkBoard [] (some (Card.Minor Suit.Sword ⟨2⟩)) [] []

/-- Empty slot, pile 0 = lone 5 of Swords, pile 1 = lone 6 of Swords: the spec
expects the pile-to-pile move `0 → 1` (and `1 → 0`), since the tops are
adjacent and the destination is non-empty. -/
def lonePairBoard : Board :=
  mkBoard [[Card.Minor Suit.Sword ⟨5⟩], [Card.Minor Suit.Sword ⟨6⟩]] none [] []

/-- Holding slot occupied by major 5 with major 4 atop trump-ascending, while
pile 0 exposes the 2 of Swords: the held card advances mid-invocation, after
which the same invocation pushes the 2 of Swords onto its suit foundation. -/
def heldFiveBoard : Board :=
  mkBoard [[Card.Minor Suit.Sword ⟨2⟩]] (some (Card.Major ⟨5⟩)) [Card.Major ⟨4⟩] []

/-- The board `heldFiveBoard` resolves to. -/
def heldFiveBoardAfter : Board :=
  { major_lower_stack := [Card.Major ⟨5⟩, Card.Major ⟨4⟩],
    major_higher_stack := [],
    minor_collection_piles :=
      [[Card.Minor Suit.Sword ⟨2⟩, Card.Minor Suit.Sword ⟨1⟩],
       [Card.Minor Suit.Wand ⟨1⟩], [Card.Minor Suit.Cup ⟨1⟩], [Card.Minor Suit.Star ⟨1⟩]],
    minor_collection_blocked := none,
    playing_area := List.replicate 11 [],
    last_n_moves := [] }

/-- A recorded move that sucked nothing (used to fill histories in examples). -/
def zeroSuckMove : Move :=
  { from_ := MoveLocation.PlayingArea 0 0,
    to_ := MoveLocation.PlayingArea 1 0,
    card := Card.Major ⟨7⟩,
    num_sucks := 0 }

/-- A stagnating board: two stacked cards that cannot move, five recorded
moves none of which sucked anything. -/
def stagnantBoard : Board :=
  mkBoard [[Card.Minor Suit.Sword ⟨5⟩, Card.Minor Suit.Sword ⟨9⟩]] none []
    (List.replicate 5 zeroSuckMove)

/-- A cleared board: playing area empty, slot empty, fresh foundations. -/
def clearedBoard : Board :=
  mkBoard [] none [] []

/-- Pile 0 = 3 of Swords under the 2 of Swords (2 exposed): the initial
cascade drains the pile. -/
def cascadeBoard : Board :=
  mkBoard [[Card.Minor Suit.Sword ⟨2⟩, Card.Minor Suit.Sword ⟨3⟩]] none [] []

/-- The board `cascadeBoard` resolves to. -/
def cascadeBoardAfter : Board :=
  { major_lower_stack := [],
    major_higher_stack := [],
    minor_collection_piles :=
      [[Card.Minor Suit.Sword ⟨3⟩, Card.Minor Suit.Sword ⟨2⟩, Card.Minor Suit.Sword ⟨1⟩],
       [Card.Minor Suit.Wand ⟨1⟩], [Card.Minor Suit.Cup ⟨1⟩], [Card.Minor Suit.Star ⟨1⟩]],
    minor_collection_blocked := none,
    playing_area := List.replicate 11 [],
    last_n_moves := [] }

/-- The deal text used against claim C8: a blank middle line. -/
def blankLineInput : String := "2_SWO\n\n3_SWO"

/-- The common shape of every successor the Move Generator returns: an edit
of the original board that moves one card between the playing area and the
holding slot (preserving the card multiset and not touching the suit
foundations), followed by a full cascade resolution and the history update. -/
def StepShape (b b' : Board) : Prop :=
  ∃ bMid b2 cs m2, cardMS bMid = cardMS b ∧
    bMid.minor_collection_piles = b.minor_collection_piles ∧
    Board.suck_readies_into_receptacles bMid = some (b2, cs) ∧
    b' = Board.with_prev_move b2 m2

/-- The board `Board.parse blankLineInput` produces: the blank middle line
consumes pile slot 1, pushing `3_SWO` to pile 2. -/
def parsedBlankBoard : Board :=
  { major_lower_stack := [],
    major_higher_stack := [],
    minor_collection_piles := acesMinors,
    minor_collection_blocked := none,
    playing_area := [[Card.Minor Suit.Sword ⟨2⟩], [], [Card.Minor Suit.Sword ⟨3⟩]]
      ++ List.replicate 8 [],
    last_n_moves := [] }

/-! ### Generic helper lemmas -/

theorem foldOpt_inv {σ α : Type} (f : σ → α → Option σ) (P : σ → Prop)
    (hf : ∀ s x s', P s → f s x = some s' → P s') :
    ∀ (xs : List α) (s s' : σ), P s → foldOpt f s xs = some s' → P s' := by
  intro xs
  induction xs with
  | nil =>
    intro s s' hs h
    simp only [foldOpt, Option.some.injEq] at h
    exact h ▸ hs
  | cons x xs ih =>
    intro s s' hs h
    simp only [foldOpt] at h
    cases hx : f s x with
    | none => simp [hx] at h
    | some s1 =>
      simp only [hx] at h
      exact ih s1 s' (hf s x s1 hs hx) h

theorem mapOpt_mem {α β : Type} (f : α → Option β) :
    ∀ (xs : List α) (ys : List β), mapOpt f xs = some ys →
      ∀ y ∈ ys, ∃ x ∈ xs, f x = some y := by
  intro xs
  induction xs with
  | nil =>
    intro ys h y hy
    simp only [mapOpt, Option.some.injEq] at h
    subst h
    simp at hy
  | cons x xs ih =>
    intro ys h y hy
    simp only [mapOpt] at h
    cases hx : f x with
    | none => simp [hx] at h
    | some y1 =>
      simp only [hx] at h
      cases hr : mapOpt f xs with
      | none => simp [hr] at h
      | some ys1 =>
        simp only [hr, Option.some.injEq] at h
        subst h
        rcases List.mem_cons.mp hy with hy | hy
        · exact ⟨x, List.mem_cons_self x xs, hy ▸ hx⟩
        · obtain ⟨x1, hx1, hfx1⟩ := ih ys1 hr y hy
          exact ⟨x1, List.mem_cons_of_mem x hx1, hfx1⟩

theorem mapOpt_length {α β : Type} (f : α → Option β) :
    ∀ (xs : List α) (ys : List β), mapOpt f xs = some ys → ys.length = xs.length := by
  intro xs
  induction xs with
  | nil =>
    intro ys h
    simp only [mapOpt, Option.some.injEq] at h
    subst h; rfl
  | cons x xs ih =>
    intro ys h
    simp only [mapOpt] at h
    cases hx : f x with
    | none => simp [hx] at h
    | some y1 =>
      simp only [hx] at h
      cases hr : mapOpt f xs with
      | none => simp [hr] at h
      | some ys1 =>
        simp only [hr, Option.some.injEq] at h
        subst h
        simp [ih ys1 hr]

theorem mapOpt_getD {α β : Type} (f : α → Option β) :
    ∀ (xs : List α) (ys : List β), mapOpt f xs = some ys →
      ∀ (i : Nat), i < xs.length → ∀ (d : α) (d' : β),
        ∃ y, f (xs.getD i d) = some y ∧ ys.getD i d' = y := by
  intro xs
  induction xs with
  | nil => intro ys h i hi; simp at hi
  | cons x xs ih =>
    intro ys h i hi d d'
    simp only [mapOpt] at h
    cases hx : f x with
    | none => simp [hx] at h
    | some y1 =>
      simp only [hx] at h
      cases hr : mapOpt f xs with
      | none => simp [hr] at h
      | some ys1 =>
        simp only [hr, Option.some.injEq] at h
        subst h
        cases i with
        | zero => exact ⟨y1, by simpa using hx, rfl⟩
        | succ n =>
          have hn : n < xs.length := by simpa using hi
          simpa using ih ys1 hr n hn d d'

theorem getD_set_self {α : Type} (ls : List α) (i : Nat) (x d : α) (h : i < ls.length) :
    (ls.set i x).getD i d = x := by
  simp [List.getD_eq_getElem?_getD, List.getElem?_set_self h]

theorem getD_set_ne {α : Type} (ls : List α) (i j : Nat) (x d : α) (h : i ≠ j) :
    (ls.set i x).getD j d = ls.getD j d := by
  simp [List.getD_eq_getElem?_getD, List.getElem?_set_ne h]

theorem getD_lt_length {α : Type} (ls : List α) (i : Nat) (d : α)
    (h : ¬ ls.getD i d = d) : i < ls.length := by
  by_contra hi
  have : ls[i]? = none := List.getElem?_eq_none (by omega)
  simp [List.getD_eq_getElem?_getD, this] at h

theorem getLast?_cons_of_ne_nil {α : Type} (a : α) (l : List α) (h : l ≠ []) :
    (a :: l).getLast? = l.getLast? := by
  cases l with
  | nil => exact absurd rfl h
  | cons b t => exact List.getLast?_cons_cons

theorem pilesMS_set :
    ∀ (ls : List (List Card)) (i : Nat) (x : List Card), i < ls.length →
      pilesMS (ls.set i x) + Multiset.ofList (ls.getD i [])
        = pilesMS ls + Multiset.ofList x := by
  intro ls
  induction ls with
  | nil => intro i x h; simp at h
  | cons hd tl ih =>
    intro i x h
    cases i with
    | zero =>
      simp only [List.set_cons_zero, pilesMS, List.map_cons, List.sum_cons,
        List.getD_cons_zero]
      abel
    | succ n =>
      have hn : n < tl.length := by simpa using h
      have hrec := ih n x hn
      simp only [pilesMS] at hrec
      simp only [List.set_cons_succ, pilesMS, List.map_cons, List.sum_cons,
        List.getD_cons_succ]
      simp only [add_assoc]
      rw [hrec]

theorem ofList_cons (a : Card) (l : List Card) :
    Multiset.ofList (a :: l) = a ::ₘ Multiset.ofList l := rfl

theorem pilesMS_pop (ls : List (List Card)) (i : Nat) (card : Card) (rest : List Card)
    (h : ls.getD i [] = card :: rest) :
    pilesMS ls = card ::ₘ pilesMS (ls.set i rest) := by
  have hi : i < ls.length := getD_lt_length ls i [] (by rw [h]; simp)
  have hset := pilesMS_set ls i rest hi
  rw [h, ofList_cons] at hset
  have h2 : (card ::ₘ pilesMS (ls.set i rest)) + Multiset.ofList rest
      = pilesMS ls + Multiset.ofList rest := by
    rw [← hset, ← Multiset.singleton_add, ← Multiset.singleton_add]
    abel
  exact (add_right_cancel h2).symm

theorem pilesMS_push (ls : List (List Card)) (i : Nat) (card : Card)
    (hi : i < ls.length) :
    pilesMS (ls.set i (card :: ls.getD i [])) = card ::ₘ pilesMS ls := by
  have hset := pilesMS_set ls i (card :: ls.getD i []) hi
  rw [ofList_cons] at hset
  have h2 : pilesMS (ls.set i (card :: ls.getD i [])) + Multiset.ofList (ls.getD i [])
      = (card ::ₘ pilesMS ls) + Multiset.ofList (ls.getD i []) := by
    rw [hset, ← Multiset.singleton_add, ← Multiset.singleton_add]
    abel
  exact add_right_cancel h2

/-! ### Characterizations of the resolver's steps -/

theorem minorStep_cases {lc : Card} {i : Nat} {s s' : SuckAcc} {j : Nat}
    (h : minorStep lc i s j = some s') :
    s' = s ∨
    ∃ card rest,
      getP s.1.playing_area i = card :: rest ∧
      getP s.1.minor_collection_piles j ≠ [] ∧
      s' = ({ s.1 with
                playing_area := s.1.playing_area.set i rest,
                minor_collection_piles := s.1.minor_collection_piles.set j
                  (card :: getP s.1.minor_collection_piles j) },
            s.2.1 ++ [card], true) := by
  unfold minorStep at h
  split at h
  · exact absurd h (by simp)
  · rename_i mt hm
    split at h
    · split at h
      · exact absurd h (by simp)
      · rename_i card rest hp
        simp only [Option.some.injEq] at h
        refine Or.inr ⟨card, rest, hp, ?_, h.symm⟩
        intro hc
        rw [hc] at hm
        simp at hm
    · simp only [Option.some.injEq] at h
      exact Or.inl h.symm

theorem majorStep_cases {lc : Card} {i : Nat} {s s' : SuckAcc}
    (h : majorStep lc i s = some s') :
    s' = s ∨
    ∃ card rest,
      getP s.1.playing_area i = card :: rest ∧
      (s' = ({ s.1 with
                 playing_area := s.1.playing_area.set i rest,
                 major_lower_stack := card :: s.1.major_lower_stack },
             s.2.1 ++ [card], true)
       ∨ s' = ({ s.1 with
                   playing_area := s.1.playing_area.set i rest,
                   major_higher_stack := card :: s.1.major_higher_stack },
               s.2.1 ++ [card], true)) := by
  unfold majorStep at h
  split at h
  · split at h
    · exact absurd h (by simp)
    · rename_i card rest hp
      simp only [Option.some.injEq] at h
      exact Or.inr ⟨card, rest, hp, Or.inl h.symm⟩
  · split at h
    · split at h
      · exact absurd h (by simp)
      · rename_i card rest hp
        simp only [Option.some.injEq] at h
        exact Or.inr ⟨card, rest, hp, Or.inr h.symm⟩
    · simp only [Option.some.injEq] at h
      exact Or.inl h.symm

theorem heldStep_cases (s : SuckAcc) :
    heldStep s = s ∨
    ∃ bc,
      s.1.minor_collection_blocked = some bc ∧
      (heldStep s = ({ s.1 with
                         major_lower_stack := bc :: s.1.major_lower_stack,
                         minor_collection_blocked := none },
                     s.2.1 ++ [bc], true)
       ∨ heldStep s = ({ s.1 with
                           major_higher_stack := bc :: s.1.major_higher_stack,
                           minor_collection_blocked := none },
                       s.2.1 ++ [bc], true)) := by
  unfold heldStep
  split
  · exact Or.inl rfl
  · rename_i bc hb
    split
    · exact Or.inr ⟨bc, hb, Or.inl rfl⟩
    · split
      · exact Or.inr ⟨bc, hb, Or.inr rfl⟩
      · exact Or.inl rfl

/-! ### Derived facts about the steps -/

theorem getP_lt_length {ls : List (List Card)} {i : Nat} (h : getP ls i ≠ []) :
    i < ls.length := getD_lt_length ls i [] h

theorem getP_set_self {ls : List (List Card)} {i : Nat} {x : List Card}
    (h : i < ls.length) : getP (ls.set i x) i = x := getD_set_self ls i x [] h

theorem getP_set_ne {ls : List (List Card)} {i j : Nat} {x : List Card}
    (h : i ≠ j) : getP (ls.set i x) j = getP ls j := getD_set_ne ls i j x [] h

theorem pilesMS_popP {ls : List (List Card)} {i : Nat} {card : Card} {rest : List Card}
    (h : getP ls i = card :: rest) : pilesMS ls = card ::ₘ pilesMS (ls.set i rest) :=
  pilesMS_pop ls i card rest h

theorem pilesMS_pushP (ls : List (List Card)) (i : Nat) (card : Card)
    (hi : i < ls.length) :
    pilesMS (ls.set i (card :: getP ls i)) = card ::ₘ pilesMS ls :=
  pilesMS_push ls i card hi

theorem minorStep_cardMS {lc : Card} {i : Nat} {s s' : SuckAcc} {j : Nat}
    (h : minorStep lc i s j = some s') : cardMS s'.1 = cardMS s.1 := by
  rcases minorStep_cases h with rfl | ⟨card, rest, hp, hne, rfl⟩
  · rfl
  · have hj : j < s.1.minor_collection_piles.length := getP_lt_length hne
    simp only [cardMS]
    rw [pilesMS_pushP s.1.minor_collection_piles j card hj, pilesMS_popP hp]
    rw [← Multiset.singleton_add, ← Multiset.singleton_add]
    abel

theorem majorStep_cardMS {lc : Card} {i : Nat} {s s' : SuckAcc}
    (h : majorStep lc i s = some s') : cardMS s'.1 = cardMS s.1 := by
  rcases majorStep_cases h with rfl | ⟨card, rest, hp, hcase | hcase⟩
  · rfl
  · subst hcase
    simp only [cardMS, ofList_cons]
    rw [pilesMS_popP hp]
    rw [← Multiset.singleton_add, ← Multiset.singleton_add]
    abel
  · subst hcase
    simp only [cardMS, ofList_cons]
    rw [pilesMS_popP hp]
    rw [← Multiset.singleton_add, ← Multiset.singleton_add]
    abel

theorem heldStep_cardMS (s : SuckAcc) : cardMS (heldStep s).1 = cardMS s.1 := by
  rcases heldStep_cases s with heq | ⟨bc, hb, heq | heq⟩ <;> rw [heq]
  · simp only [cardMS, ofList_cons, hb, slotMS]
    rw [← Multiset.singleton_add]
    abel
  · simp only [cardMS, ofList_cons, hb, slotMS]
    rw [← Multiset.singleton_add]
    abel

theorem minorStep_nochange {lc : Card} {i : Nat} {s s' : SuckAcc} {j : Nat}
    (h : minorStep lc i s j = some s') (hc : s'.2.2 = false) : s' = s := by
  rcases minorStep_cases h with rfl | ⟨card, rest, hp, hne, rfl⟩
  · rfl
  · simp at hc

theorem majorStep_nochange {lc : Card} {i : Nat} {s s' : SuckAcc}
    (h : majorStep lc i s = some s') (hc : s'.2.2 = false) : s' = s := by
  rcases majorStep_cases h with rfl | ⟨card, rest, hp, hcase | hcase⟩
  · rfl
  · subst hcase; simp at hc
  · subst hcase; simp at hc

theorem heldStep_nochange {s : SuckAcc} (hc : (heldStep s).2.2 = false) : heldStep s = s := by
  rcases heldStep_cases s with heq | ⟨bc, hb, heq | heq⟩
  · exact heq
  · rw [heq] at hc; simp at hc
  · rw [heq] at hc; simp at hc

theorem minorStep_blocked {lc : Card} {i : Nat} {s s' : SuckAcc} {j : Nat}
    (h : minorStep lc i s j = some s') :
    s'.1.minor_collection_blocked = s.1.minor_collection_blocked := by
  rcases minorStep_cases h with rfl | ⟨card, rest, hp, hne, rfl⟩ <;> rfl

theorem majorStep_blocked {lc : Card} {i : Nat} {s s' : SuckAcc}
    (h : majorStep lc i s = some s') :
    s'.1.minor_collection_blocked = s.1.minor_collection_blocked := by
  rcases majorStep_cases h with rfl | ⟨card, rest, hp, hcase | hcase⟩
  · rfl
  · subst hcase; rfl
  · subst hcase; rfl

theorem majorStep_minors {lc : Card} {i : Nat} {s s' : SuckAcc}
    (h : majorStep lc i s = some s') :
    s'.1.minor_collection_piles = s.1.minor_collection_piles := by
  rcases majorStep_cases h with rfl | ⟨card, rest, hp, hcase | hcase⟩
  · rfl
  · subst hcase; rfl
  · subst hcase; rfl

theorem heldStep_minors (s : SuckAcc) :
    (heldStep s).1.minor_collection_piles = s.1.minor_collection_piles := by
  rcases heldStep_cases s with heq | ⟨bc, hb, heq | heq⟩ <;> rw [heq]

theorem minorStep_aces {lc : Card} {i : Nat} {s s' : SuckAcc} {j : Nat}
    (h : minorStep lc i s j = some s') (ha : InvAces s.1) : InvAces s'.1 := by
  rcases minorStep_cases h with rfl | ⟨card, rest, hp, hne, rfl⟩
  · exact ha
  · obtain ⟨hlen, hj⟩ := ha
    have hjlt : j < s.1.minor_collection_piles.length := getP_lt_length hne
    refine ⟨by simpa using hlen, ?_⟩
    intro j' hj'
    by_cases hje : j = j'
    · subst hje
      show (getP (s.1.minor_collection_piles.set j (card :: getP s.1.minor_collection_piles j)) j).getLast? = _
      rw [getP_set_self hjlt, getLast?_cons_of_ne_nil _ _ hne]
      exact hj j hj'
    · show (getP (s.1.minor_collection_piles.set j (card :: getP s.1.minor_collection_piles j)) j').getLast? = _
      rw [getP_set_ne hje]
      exact hj j' hj'

theorem majorStep_aces {lc : Card} {i : Nat} {s s' : SuckAcc}
    (h : majorStep lc i s = some s') (ha : InvAces s.1) : InvAces s'.1 := by
  obtain ⟨hlen, hj⟩ := ha
  exact ⟨by rw [majorStep_minors h]; exact hlen,
         by rw [majorStep_minors h]; exact hj⟩

theorem heldStep_aces {s : SuckAcc} (ha : InvAces s.1) : InvAces (heldStep s).1 := by
  obtain ⟨hlen, hj⟩ := ha
  exact ⟨by rw [heldStep_minors s]; exact hlen, by rw [heldStep_minors s]; exact hj⟩

theorem minorStep_accshift (a2 : List Card) {lc : Card} {i j : Nat} {b : Board}
    {acc : List Card} {ch : Bool} {s' : SuckAcc} (h : minorStep lc i (b, acc, ch) j = some s') :
    ∃ Δ, s'.2.1 = acc ++ Δ ∧
      minorStep lc i (b, a2, ch) j = some (s'.1, a2 ++ Δ, s'.2.2) := by
  unfold minorStep at h ⊢
  dsimp only at h ⊢
  split at h
  · exact absurd h (by simp)
  · rename_i mt hm
    split at h
    · rename_i hnext
      split at h
      · exact absurd h (by simp)
      · rename_i card rest hp
        simp only [Option.some.injEq] at h
        subst h
        exact ⟨[card], rfl, by rw [if_pos hnext]⟩
    · rename_i hnext
      simp only [Option.some.injEq] at h
      subst h
      refine ⟨[], by simp, ?_⟩
      rw [if_neg hnext]
      simp

theorem majorStep_accshift (a2 : List Card) {lc : Card} {i : Nat} {b : Board}
    {acc : List Card} {ch : Bool} {s' : SuckAcc} (h : majorStep lc i (b, acc, ch) = some s') :
    ∃ Δ, s'.2.1 = acc ++ Δ ∧
      majorStep lc i (b, a2, ch) = some (s'.1, a2 ++ Δ, s'.2.2) := by
  unfold majorStep at h ⊢
  dsimp only at h ⊢
  split at h
  · rename_i h1
    split at h
    · exact absurd h (by simp)
    · rename_i card rest hp
      simp only [Option.some.injEq] at h
      subst h
      exact ⟨[card], rfl, by rw [if_pos h1]⟩
  · rename_i h1
    split at h
    · rename_i h2
      split at h
      · exact absurd h (by simp)
      · rename_i card rest hp
        simp only [Option.some.injEq] at h
        subst h
        exact ⟨[card], rfl, by rw [if_neg h1, if_pos h2]⟩
    · rename_i h2
      simp only [Option.some.injEq] at h
      subst h
      exact ⟨[], by simp, by rw [if_neg h1, if_neg h2]; simp⟩

theorem heldStep_accshift (b : Board) (acc a2 : List Card) (ch : Bool) :
    ∃ Δ, (heldStep (b, acc, ch)).2.1 = acc ++ Δ ∧
      heldStep (b, a2, ch) = ((heldStep (b, acc, ch)).1, a2 ++ Δ, (heldStep (b, acc, ch)).2.2) := by
  unfold heldStep
  dsimp only
  split
  · exact ⟨[], by simp, by simp⟩
  · rename_i bc hb
    split
    · exact ⟨[bc], rfl, rfl⟩
    · split
      · exact ⟨[bc], rfl, rfl⟩
      · exact ⟨[], by simp, by simp⟩

theorem foldOpt_accshift {α : Type} (f : SuckAcc → α → Option SuckAcc)
    (hf : ∀ (b : Board) (acc a2 : List Card) (ch : Bool) (x : α) (s' : SuckAcc),
        f (b, acc, ch) x = some s' →
        ∃ Δ, s'.2.1 = acc ++ Δ ∧ f (b, a2, ch) x = some (s'.1, a2 ++ Δ, s'.2.2)) :
    ∀ (xs : List α) (b : Board) (acc a2 : List Card) (ch : Bool) (s' : SuckAcc),
      foldOpt f (b, acc, ch) xs = some s' →
      ∃ Δ, s'.2.1 = acc ++ Δ ∧ foldOpt f (b, a2, ch) xs = some (s'.1, a2 ++ Δ, s'.2.2) := by
  intro xs
  induction xs with
  | nil =>
    intro b acc a2 ch s' h
    simp only [foldOpt, Option.some.injEq] at h
    subst h
    exact ⟨[], by simp, by simp [foldOpt]⟩
  | cons x xs ih =>
    intro b acc a2 ch s' h
    simp only [foldOpt] at h
    cases hx : f (b, acc, ch) x with
    | none => simp [hx] at h
    | some s1 =>
      simp only [hx] at h
      obtain ⟨b1, acc1, ch1⟩ := s1
      obtain ⟨Δ1, hΔ1, hx2⟩ := hf b acc a2 ch x _ hx
      dsimp only at hΔ1 hx2
      subst hΔ1
      obtain ⟨Δ2, hΔ2, hrec⟩ := ih b1 (acc ++ Δ1) (a2 ++ Δ1) ch1 s' h
      refine ⟨Δ1 ++ Δ2, ?_, ?_⟩
      · rw [hΔ2, List.append_assoc]
      · simp only [foldOpt, hx2]
        rw [← List.append_assoc]
        exact hrec

theorem pileStep_accshift (tops : List (Option Card)) (i : Nat) :
    ∀ (b : Board) (acc a2 : List Card) (ch : Bool) (s' : SuckAcc),
      pileStep tops (b, acc, ch) i = some s' →
      ∃ Δ, s'.2.1 = acc ++ Δ ∧ pileStep tops (b, a2, ch) i = some (s'.1, a2 ++ Δ, s'.2.2) := by
  intro b acc a2 ch s' h
  unfold pileStep at h ⊢
  split at h
  · simp only [Option.some.injEq] at h
    subst h
    exact ⟨[], by simp, by simp⟩
  · rename_i lc hlc
    dsimp only at h ⊢
    by_cases hbl : b.minor_collection_blocked = none
    · rw [if_pos hbl] at h ⊢
      cases hfold : foldOpt (minorStep lc i) (b, acc, ch) [0, 1, 2, 3] with
      | none => rw [hfold] at h; simp at h
      | some s1 =>
        rw [hfold] at h
        dsimp only at h
        obtain ⟨b1, acc1, ch1⟩ := s1
        obtain ⟨Δ1, hΔ1, hfold2⟩ := foldOpt_accshift (minorStep lc i)
          (fun b acc a2 ch x s' hx => minorStep_accshift a2 hx) [0, 1, 2, 3] b acc a2 ch _ hfold
        dsimp only at hΔ1 hfold2
        subst hΔ1
        rw [hfold2]
        dsimp only
        obtain ⟨Δ2, hΔ2, hmaj⟩ := majorStep_accshift (a2 ++ Δ1) h
        refine ⟨Δ1 ++ Δ2, by rw [hΔ2, List.append_assoc], ?_⟩
        rw [hmaj, ← List.append_assoc]
    · rw [if_neg hbl] at h ⊢
      dsimp only at h ⊢
      exact majorStep_accshift a2 h

theorem suckPass_accshift (a2 : List Card) {b : Board} {acc : List Card} {s' : SuckAcc}
    (h : suckPass b acc = some s') :
    ∃ Δ, s'.2.1 = acc ++ Δ ∧ suckPass b a2 = some (s'.1, a2 ++ Δ, s'.2.2) := by
  unfold suckPass at h ⊢
  cases hfold : foldOpt (pileStep (b.playing_area.map List.head?)) (b, acc, false)
      (List.range b.playing_area.length) with
  | none => rw [hfold] at h; simp at h
  | some s1 =>
    rw [hfold] at h
    dsimp only at h
    simp only [Option.some.injEq] at h
    subst h
    obtain ⟨b1, acc1, ch1⟩ := s1
    obtain ⟨Δ1, hΔ1, hfold2⟩ := foldOpt_accshift (pileStep (b.playing_area.map List.head?))
      (fun b acc a2 ch x s' hx => pileStep_accshift _ _ b acc a2 ch s' hx)
      (List.range b.playing_area.length) b acc a2 false _ hfold
    dsimp only at hΔ1 hfold2
    subst hΔ1
    rw [hfold2]
    dsimp only
    obtain ⟨Δ2, hΔ2, hheld⟩ := heldStep_accshift b1 (acc ++ Δ1) (a2 ++ Δ1) ch1
    refine ⟨Δ1 ++ Δ2, by rw [hΔ2, List.append_assoc], ?_⟩
    rw [hheld, ← List.append_assoc]

theorem heldStep_noneId {s : SuckAcc} (hb : s.1.minor_collection_blocked = none) :
    heldStep s = s := by
  rcases heldStep_cases s with heq | ⟨bc, hbc, heq | heq⟩
  · exact heq
  · rw [hb] at hbc; exact absurd hbc (by simp)
  · rw [hb] at hbc; exact absurd hbc (by simp)

theorem pileStep_nochange {tops : List (Option Card)} {i : Nat} {s s' : SuckAcc}
    (h : pileStep tops s i = some s') (hc : s'.2.2 = false) : s' = s := by
  unfold pileStep at h
  split at h
  · simp only [Option.some.injEq] at h
    exact h.symm
  · rename_i lc hlc
    by_cases hbl : s.1.minor_collection_blocked = none
    · rw [if_pos hbl] at h
      cases hfold : foldOpt (minorStep lc i) s [0, 1, 2, 3] with
      | none => rw [hfold] at h; simp at h
      | some s1 =>
        rw [hfold] at h
        dsimp only at h
        have hs' := majorStep_nochange h hc
        have h1 : s1.2.2 = false := by rw [← hs']; exact hc
        have h2 : s1 = s := by
          refine foldOpt_inv (minorStep lc i) (fun t => t.2.2 = false → t = s) ?_
            [0, 1, 2, 3] s s1 (fun _ => rfl) hfold h1
          intro t x t' ht hstep htc
          have heq := minorStep_nochange hstep htc
          rw [heq]
          exact ht (by rw [← heq]; exact htc)
        rw [hs', h2]
    · rw [if_neg hbl] at h
      dsimp only at h
      exact majorStep_nochange h hc

theorem suckPass_nochange {b : Board} {acc : List Card} {b' : Board} {acc' : List Card}
    (h : suckPass b acc = some (b', acc', false)) : b' = b ∧ acc' = acc := by
  unfold suckPass at h
  cases hfold : foldOpt (pileStep (b.playing_area.map List.head?)) (b, acc, false)
      (List.range b.playing_area.length) with
  | none => rw [hfold] at h; simp at h
  | some s1 =>
    rw [hfold] at h
    dsimp only at h
    simp only [Option.some.injEq] at h
    have hne : (heldStep s1).2.2 = false := by rw [h]
    have h2 := heldStep_nochange hne
    rw [h2] at h
    have h3 : s1 = (b, acc, false) := by
      refine foldOpt_inv _ (fun t => t.2.2 = false → t = (b, acc, false)) ?_ _ _ _
        (fun _ => rfl) hfold (by rw [h])
      intro t x t' ht hstep htc
      have heq := pileStep_nochange hstep htc
      rw [heq]
      exact ht (by rw [← heq]; exact htc)
    rw [h3] at h
    simp only [Prod.mk.injEq] at h
    exact ⟨h.1.symm, h.2.1.symm⟩

theorem suckFuel_fix :
    ∀ (fuel : Nat) (b : Board) (acc : List Card) (b' : Board) (cs : List Card),
      suckFuel fuel b acc = some (b', cs) → suckPass b' cs = some (b', cs, false) := by
  intro fuel
  induction fuel with
  | zero => intro b acc b' cs h; simp [suckFuel] at h
  | succ n ih =>
    intro b acc b' cs h
    unfold suckFuel at h
    cases hp : suckPass b acc with
    | none => rw [hp] at h; simp at h
    | some s =>
      rw [hp] at h
      dsimp only at h
      by_cases hch : s.2.2 = true
      · rw [if_pos hch] at h
        exact ih s.1 s.2.1 b' cs h
      · rw [if_neg hch] at h
        simp only [Option.some.injEq] at h
        obtain ⟨b1, a1, c1⟩ := s
        simp only [Bool.not_eq_true] at hch
        dsimp only at h hch
        subst hch
        simp only [Prod.mk.injEq] at h
        obtain ⟨hb, ha⟩ := h
        subst hb
        subst ha
        obtain ⟨hb2, ha2⟩ := suckPass_nochange hp
        rw [hb2, ha2] at hp ⊢
        exact hp

theorem suckFuel_accshift :
    ∀ (fuel : Nat) (b : Board) (acc a2 : List Card) (r : Board × List Card),
      suckFuel fuel b acc = some r →
      ∃ Δ, r.2 = acc ++ Δ ∧ suckFuel fuel b a2 = some (r.1, a2 ++ Δ) := by
  intro fuel
  induction fuel with
  | zero => intro b acc a2 r h; simp [suckFuel] at h
  | succ n ih =>
    intro b acc a2 r h
    unfold suckFuel at h
    cases hp : suckPass b acc with
    | none => rw [hp] at h; simp at h
    | some s =>
      rw [hp] at h
      dsimp only at h
      obtain ⟨b1, a1, c1⟩ := s
      obtain ⟨Δ1, hΔ1, hp2⟩ := suckPass_accshift a2 hp
      dsimp only at hΔ1 hp2
      subst hΔ1
      dsimp only at h
      by_cases hch : c1 = true
      · rw [if_pos hch] at h
        obtain ⟨Δ2, hΔ2, hrec⟩ := ih b1 (acc ++ Δ1) (a2 ++ Δ1) r h
        refine ⟨Δ1 ++ Δ2, by rw [hΔ2, List.append_assoc], ?_⟩
        unfold suckFuel
        rw [hp2]
        dsimp only
        rw [if_pos hch, ← List.append_assoc]
        exact hrec
      · rw [if_neg hch] at h
        simp only [Option.some.injEq] at h
        subst h
        refine ⟨Δ1, rfl, ?_⟩
        unfold suckFuel
        rw [hp2]
        dsimp only
        rw [if_neg hch]

theorem pileStep_cardMS {tops : List (Option Card)} {i : Nat} {s s' : SuckAcc}
    (h : pileStep tops s i = some s') : cardMS s'.1 = cardMS s.1 := by
  unfold pileStep at h
  split at h
  · simp only [Option.some.injEq] at h
    rw [← h]
  · rename_i lc hlc
    by_cases hbl : s.1.minor_collection_blocked = none
    · rw [if_pos hbl] at h
      cases hfold : foldOpt (minorStep lc i) s [0, 1, 2, 3] with
      | none => rw [hfold] at h; simp at h
      | some s1 =>
        rw [hfold] at h
        dsimp only at h
        have h1 : cardMS s1.1 = cardMS s.1 :=
          foldOpt_inv (minorStep lc i) (fun t => cardMS t.1 = cardMS s.1)
            (fun t x t' ht hstep => by
              show cardMS t'.1 = cardMS s.1
              rw [minorStep_cardMS hstep]; exact ht)
            [0, 1, 2, 3] s s1 rfl hfold
        rw [majorStep_cardMS h, h1]
    · rw [if_neg hbl] at h
      dsimp only at h
      exact majorStep_cardMS h

theorem suckPass_cardMS {b : Board} {acc : List Card} {s' : SuckAcc}
    (h : suckPass b acc = some s') : cardMS s'.1 = cardMS b := by
  unfold suckPass at h
  cases hfold : foldOpt (pileStep (b.playing_area.map List.head?)) (b, acc, false)
      (List.range b.playing_area.length) with
  | none => rw [hfold] at h; simp at h
  | some s1 =>
    rw [hfold] at h
    dsimp only at h
    simp only [Option.some.injEq] at h
    have h1 : cardMS s1.1 = cardMS b :=
      foldOpt_inv (pileStep (b.playing_area.map List.head?)) (fun t => cardMS t.1 = cardMS b)
        (fun t x t' ht hstep => by
          show cardMS t'.1 = cardMS b
          rw [pileStep_cardMS hstep]; exact ht)
        (List.range b.playing_area.length) (b, acc, false) s1 rfl hfold
    rw [← h, heldStep_cardMS s1]
    exact h1

theorem suckFuel_cardMS :
    ∀ (fuel : Nat) (b : Board) (acc : List Card) (r : Board × List Card),
      suckFuel fuel b acc = some r → cardMS r.1 = cardMS b := by
  intro fuel
  induction fuel with
  | zero => intro b acc r h; simp [suckFuel] at h
  | succ n ih =>
    intro b acc r h
    unfold suckFuel at h
    cases hp : suckPass b acc with
    | none => rw [hp] at h; simp at h
    | some s =>
      rw [hp] at h
      dsimp only at h
      by_cases hch : s.2.2 = true
      · rw [if_pos hch] at h
        rw [ih s.1 s.2.1 r h, suckPass_cardMS hp]
      · rw [if_neg hch] at h
        simp only [Option.some.injEq] at h
        rw [← h]
        exact suckPass_cardMS hp

theorem suck_cardMS {b b' : Board} {cs : List Card}
    (h : b.suck_readies_into_receptacles = some (b', cs)) : cardMS b' = cardMS b :=
  suckFuel_cardMS (measureB b + 1) b [] (b', cs) h

theorem pileStep_aces {tops : List (Option Card)} {i : Nat} {s s' : SuckAcc}
    (h : pileStep tops s i = some s') (ha : InvAces s.1) : InvAces s'.1 := by
  unfold pileStep at h
  split at h
  · simp only [Option.some.injEq] at h
    rw [← h]
    exact ha
  · rename_i lc hlc
    by_cases hbl : s.1.minor_collection_blocked = none
    · rw [if_pos hbl] at h
      cases hfold : foldOpt (minorStep lc i) s [0, 1, 2, 3] with
      | none => rw [hfold] at h; simp at h
      | some s1 =>
        rw [hfold] at h
        dsimp only at h
        have h1 : InvAces s1.1 :=
          foldOpt_inv (minorStep lc i) (fun t => InvAces t.1)
            (fun t x t' ht hstep => minorStep_aces hstep ht)
            [0, 1, 2, 3] s s1 ha hfold
        exact majorStep_aces h h1
    · rw [if_neg hbl] at h
      dsimp only at h
      exact majorStep_aces h ha

theorem suckPass_aces {b : Board} {acc : List Card} {s' : SuckAcc}
    (h : suckPass b acc = some s') (ha : InvAces b) : InvAces s'.1 := by
  unfold suckPass at h
  cases hfold : foldOpt (pileStep (b.playing_area.map List.head?)) (b, acc, false)
      (List.range b.playing_area.length) with
  | none => rw [hfold] at h; simp at h
  | some s1 =>
    rw [hfold] at h
    dsimp only at h
    simp only [Option.some.injEq] at h
    have h1 : InvAces s1.1 :=
      foldOpt_inv _ (fun t => InvAces t.1)
        (fun t x t' ht hstep => pileStep_aces hstep ht) _ _ _ ha hfold
    rw [← h]
    exact heldStep_aces h1

theorem suckFuel_aces :
    ∀ (fuel : Nat) (b : Board) (acc : List Card) (r : Board × List Card),
      suckFuel fuel b acc = some r → InvAces b → InvAces r.1 := by
  intro fuel
  induction fuel with
  | zero => intro b acc r h; simp [suckFuel] at h
  | succ n ih =>
    intro b acc r h ha
    unfold suckFuel at h
    cases hp : suckPass b acc with
    | none => rw [hp] at h; simp at h
    | some s =>
      rw [hp] at h
      dsimp only at h
      by_cases hch : s.2.2 = true
      · rw [if_pos hch] at h
        exact ih s.1 s.2.1 r h (suckPass_aces hp ha)
      · rw [if_neg hch] at h
        simp only [Option.some.injEq] at h
        rw [← h]
        exact suckPass_aces hp ha

theorem suck_aces {b b' : Board} {cs : List Card}
    (h : b.suck_readies_into_receptacles = some (b', cs)) (ha : InvAces b) : InvAces b' :=
  suckFuel_aces (measureB b + 1) b [] (b', cs) h ha

theorem pileStep_blocked {tops : List (Option Card)} {i : Nat} {s s' : SuckAcc}
    (h : pileStep tops s i = some s') :
    s'.1.minor_collection_blocked = s.1.minor_collection_blocked := by
  unfold pileStep at h
  split at h
  · simp only [Option.some.injEq] at h
    rw [← h]
  · rename_i lc hlc
    by_cases hbl : s.1.minor_collection_blocked = none
    · rw [if_pos hbl] at h
      cases hfold : foldOpt (minorStep lc i) s [0, 1, 2, 3] with
      | none => rw [hfold] at h; simp at h
      | some s1 =>
        rw [hfold] at h
        dsimp only at h
        have h1 : s1.1.minor_collection_blocked = s.1.minor_collection_blocked :=
          foldOpt_inv (minorStep lc i)
            (fun t => t.1.minor_collection_blocked = s.1.minor_collection_blocked)
            (fun t x t' ht hstep => by
              show t'.1.minor_collection_blocked = s.1.minor_collection_blocked
              rw [minorStep_blocked hstep]; exact ht)
            [0, 1, 2, 3] s s1 rfl hfold
        rw [majorStep_blocked h, h1]
    · rw [if_neg hbl] at h
      dsimp only at h
      exact majorStep_blocked h

theorem pileStep_someFrame {tops : List (Option Card)} {i : Nat} {s s' : SuckAcc} {c : Card}
    (h : pileStep tops s i = some s') (hb : s.1.minor_collection_blocked = some c) :
    s'.1.minor_collection_piles = s.1.minor_collection_piles ∧
      s'.1.minor_collection_blocked = some c := by
  unfold pileStep at h
  split at h
  · simp only [Option.some.injEq] at h
    rw [← h]
    exact ⟨rfl, hb⟩
  · rename_i lc hlc
    rw [if_neg (by rw [hb]; simp)] at h
    dsimp only at h
    refine ⟨majorStep_minors h, ?_⟩
    rw [majorStep_blocked h, hb]

theorem suckPass_blockedNone {b : Board} {acc : List Card} {s' : SuckAcc}
    (h : suckPass b acc = some s') (hb : b.minor_collection_blocked = none) :
    s'.1.minor_collection_blocked = none := by
  unfold suckPass at h
  cases hfold : foldOpt (pileStep (b.playing_area.map List.head?)) (b, acc, false)
      (List.range b.playing_area.length) with
  | none => rw [hfold] at h; simp at h
  | some s1 =>
    rw [hfold] at h
    dsimp only at h
    simp only [Option.some.injEq] at h
    have h1 : s1.1.minor_collection_blocked = none :=
      foldOpt_inv _ (fun t => t.1.minor_collection_blocked = none)
        (fun t x t' ht hstep => by
          show t'.1.minor_collection_blocked = none
          rw [pileStep_blocked hstep]; exact ht) _ _ _ hb hfold
    rw [← h, heldStep_noneId h1, h1]

theorem suckPass_blockedSome {b : Board} {acc : List Card} {s' : SuckAcc} {c : Card}
    (h : suckPass b acc = some s') (hb : b.minor_collection_blocked = some c) :
    s'.1.minor_collection_blocked = none ∨
      (s'.1.minor_collection_blocked = some c ∧
        s'.1.minor_collection_piles = b.minor_collection_piles) := by
  unfold suckPass at h
  cases hfold : foldOpt (pileStep (b.playing_area.map List.head?)) (b, acc, false)
      (List.range b.playing_area.length) with
  | none => rw [hfold] at h; simp at h
  | some s1 =>
    rw [hfold] at h
    dsimp only at h
    simp only [Option.some.injEq] at h
    have h1 : s1.1.minor_collection_blocked = some c ∧
        s1.1.minor_collection_piles = b.minor_collection_piles :=
      foldOpt_inv _ (fun t => t.1.minor_collection_blocked = some c ∧
          t.1.minor_collection_piles = b.minor_collection_piles)
        (fun t x t' ht hstep => by
          obtain ⟨hbl, hmin⟩ := ht
          obtain ⟨hmin', hbl'⟩ := pileStep_someFrame hstep hbl
          exact ⟨hbl', by rw [hmin']; exact hmin⟩) _ _ _ ⟨hb, rfl⟩ hfold
    rcases heldStep_cases s1 with heq | ⟨bc, hbc, heq | heq⟩
    · rw [← h, heq]
      exact Or.inr h1
    · rw [← h, heq]
      exact Or.inl rfl
    · rw [← h, heq]
      exact Or.inl rfl

theorem suckFuel_blockedNone :
    ∀ (fuel : Nat) (b : Board) (acc : List Card) (r : Board × List Card),
      suckFuel fuel b acc = some r → b.minor_collection_blocked = none →
      r.1.minor_collection_blocked = none := by
  intro fuel
  induction fuel with
  | zero => intro b acc r h; simp [suckFuel] at h
  | succ n ih =>
    intro b acc r h hb
    unfold suckFuel at h
    cases hp : suckPass b acc with
    | none => rw [hp] at h; simp at h
    | some s =>
      rw [hp] at h
      dsimp only at h
      by_cases hch : s.2.2 = true
      · rw [if_pos hch] at h
        exact ih s.1 s.2.1 r h (suckPass_blockedNone hp hb)
      · rw [if_neg hch] at h
        simp only [Option.some.injEq] at h
        rw [← h]
        exact suckPass_blockedNone hp hb

theorem suckFuel_blockedFrame :
    ∀ (fuel : Nat) (b : Board) (acc : List Card) (r : Board × List Card) (c : Card),
      suckFuel fuel b acc = some r → b.minor_collection_blocked = some c →
      r.1.minor_collection_blocked = none ∨
        (r.1.minor_collection_blocked = some c ∧
          r.1.minor_collection_piles = b.minor_collection_piles) := by
  intro fuel
  induction fuel with
  | zero => intro b acc r c h; simp [suckFuel] at h
  | succ n ih =>
    intro b acc r c h hb
    unfold suckFuel at h
    cases hp : suckPass b acc with
    | none => rw [hp] at h; simp at h
    | some s =>
      rw [hp] at h
      dsimp only at h
      by_cases hch : s.2.2 = true
      · rw [if_pos hch] at h
        rcases suckPass_blockedSome hp hb with hnone | ⟨hsome, hmins⟩
        · exact Or.inl (suckFuel_blockedNone n s.1 s.2.1 r h hnone)
        · rcases ih s.1 s.2.1 r c h hsome with hnone' | ⟨hsome', hmins'⟩
          · exact Or.inl hnone'
          · exact Or.inr ⟨hsome', by rw [hmins', hmins]⟩
      · rw [if_neg hch] at h
        simp only [Option.some.injEq] at h
        rw [← h]
        exact suckPass_blockedSome hp hb

/-! ### From one resolver run to the Move Generator -/

theorem with_prev_move_cardMS (b : Board) (m : Move) :
    cardMS (b.with_prev_move m) = cardMS b := rfl

theorem with_prev_move_minors (b : Board) (m : Move) :
    (b.with_prev_move m).minor_collection_piles = b.minor_collection_piles := rfl

theorem suck_twice {b b' : Board} {cs : List Card}
    (h : b.suck_readies_into_receptacles = some (b', cs)) :
    b'.suck_readies_into_receptacles = some (b', []) := by
  have hfix := suckFuel_fix (measureB b + 1) b [] b' cs h
  obtain ⟨Δ, hΔ, hp2⟩ := suckPass_accshift [] hfix
  dsimp only at hΔ hp2
  have hΔnil : Δ = [] := by
    have hlen := congrArg List.length hΔ
    simp only [List.length_append] at hlen
    have hz : Δ.length = 0 := by omega
    exact List.eq_nil_of_length_eq_zero hz
  subst hΔnil
  simp only [List.append_nil, List.nil_append] at hp2
  show suckFuel (measureB b' + 1) b' [] = some (b', [])
  unfold suckFuel
  rw [hp2]
  dsimp only
  rw [if_neg (by simp)]

theorem mkHold_shape {b : Board} {src : Nat} {r : Board × Move}
    (hb : b.minor_collection_blocked = none) (h : mkHold b src = some r) :
    StepShape b r.1 := by
  unfold mkHold at h
  split at h
  · exact absurd h (by simp)
  · rename_i card rest hp
    dsimp only at h
    split at h
    · exact absurd h (by simp)
    · rename_i r2 hs
      simp only [Option.some.injEq] at h
      subst h
      obtain ⟨b2, cs2⟩ := r2
      have hMS : cardMS ({ b with playing_area := b.playing_area.set src rest, minor_collection_blocked := some card }) = cardMS b := by
        simp only [cardMS, slotMS, hb]
        rw [pilesMS_popP hp, ← Multiset.singleton_add]
        abel
      exact ⟨_, b2, cs2, _, hMS, rfl, hs, rfl⟩

theorem mkPileToPile_shape {b : Board} {src dst : Nat} {r : Board × Move}
    (hdst : dst < b.playing_area.length) (h : mkPileToPile b src dst = some r) :
    StepShape b r.1 := by
  unfold mkPileToPile at h
  split at h
  · exact absurd h (by simp)
  · rename_i card rest hp
    dsimp only at h
    split at h
    · exact absurd h (by simp)
    · rename_i r2 hs
      simp only [Option.some.injEq] at h
      subst h
      obtain ⟨b2, cs2⟩ := r2
      have hMS : cardMS ({ b with playing_area :=
          (b.playing_area.set src rest).set dst (card :: getP (b.playing_area.set src rest) dst) }) = cardMS b := by
        simp only [cardMS]
        rw [pilesMS_pushP (b.playing_area.set src rest) dst card
          (by rw [List.length_set]; exact hdst), pilesMS_popP hp]
      exact ⟨_, b2, cs2, _, hMS, rfl, hs, rfl⟩

theorem mkRelease_shape {b : Board} {card : Card} {dst : Nat} {r : Board × Move}
    (hdst : dst < b.playing_area.length) (hb : b.minor_collection_blocked = some card)
    (h : mkRelease b card dst = some r) : StepShape b r.1 := by
  unfold mkRelease at h
  dsimp only at h
  split at h
  · exact absurd h (by simp)
  · rename_i r2 hs
    simp only [Option.some.injEq] at h
    subst h
    obtain ⟨b2, cs2⟩ := r2
    have hMS : cardMS ({ b with minor_collection_blocked := none, playing_area := b.playing_area.set dst (card :: getP b.playing_area dst) }) = cardMS b := by
      simp only [cardMS, slotMS, hb]
      rw [pilesMS_pushP b.playing_area dst card hdst, ← Multiset.singleton_add]
      abel
    exact ⟨_, b2, cs2, _, hMS, rfl, hs, rfl⟩

theorem perDst_shape {b : Board} {src : Nat} {src_card : Card} {dst : Nat}
    {dlist : List (Board × Move)} (hdst : dst < b.playing_area.length)
    (h : perDst b src src_card dst = some dlist) :
    ∀ p ∈ dlist, StepShape b p.1 := by
  unfold perDst at h
  split at h
  · simp only [Option.some.injEq] at h
    subst h
    intro p hp
    simp at hp
  · split at h
    · simp only [Option.some.injEq] at h
      subst h
      intro p hp
      simp at hp
    · split at h
      · split at h
        · exact absurd h (by simp)
        · rename_i r0 hr0
          simp only [Option.some.injEq] at h
          subst h
          intro p hp
          simp only [List.mem_singleton] at hp
          subst hp
          exact mkPileToPile_shape hdst hr0
      · simp only [Option.some.injEq] at h
        subst h
        intro p hp
        simp at hp

theorem perSrc_shape {b : Board} {src : Nat} {sub : List (Board × Move)}
    (h : perSrc b src = some sub) : ∀ p ∈ sub, StepShape b p.1 := by
  unfold perSrc at h
  split at h
  · simp only [Option.some.injEq] at h
    subst h
    intro p hp
    simp at hp
  · rename_i src_card hsc
    split at h
    · rename_i hbn
      split at h
      · simp only [Option.some.injEq] at h
        subst h
        intro p hp
        simp at hp
      · split at h
        · exact absurd h (by simp)
        · rename_i hres hHold
          split at h
          · exact absurd h (by simp)
          · rename_i ds hds
            simp only [Option.some.injEq] at h
            subst h
            intro p hp
            rcases List.mem_cons.mp hp with rfl | hp2
            · exact mkHold_shape hbn hHold
            · obtain ⟨dl, hdl, hpin⟩ := List.mem_flatten.mp hp2
              obtain ⟨dst, hdr, hsome⟩ := mapOpt_mem _ _ _ hds dl hdl
              exact perDst_shape (List.mem_range.mp hdr) hsome p hpin
    · rename_i hbn
      split at h
      · exact absurd h (by simp)
      · rename_i ds hds
        simp only [Option.some.injEq] at h
        subst h
        intro p hp
        obtain ⟨dl, hdl, hpin⟩ := List.mem_flatten.mp hp
        obtain ⟨dst, hdr, hsome⟩ := mapOpt_mem _ _ _ hds dl hdl
        exact perDst_shape (List.mem_range.mp hdr) hsome p hpin

theorem perRelease_shape {b : Board} {card : Card} {dst : Nat}
    {rlist : List (Board × Move)} (hdst : dst < b.playing_area.length)
    (hb : b.minor_collection_blocked = some card)
    (h : perRelease b card dst = some rlist) : ∀ p ∈ rlist, StepShape b p.1 := by
  unfold perRelease at h
  split at h
  · split at h
    · exact absurd h (by simp)
    · rename_i r0 hr0
      simp only [Option.some.injEq] at h
      subst h
      intro p hp
      simp only [List.mem_singleton] at hp
      subst hp
      exact mkRelease_shape hdst hb hr0
  · simp only [Option.some.injEq] at h
    subst h
    intro p hp
    simp at hp

theorem genBoards_shape {b : Board} {l : List (Board × Move)}
    (h : genBoards b = some l) : ∀ p ∈ l, StepShape b p.1 := by
  unfold genBoards at h
  split at h
  · exact absurd h (by simp)
  · rename_i srcs hsrcs
    cases hbb : b.minor_collection_blocked with
    | none =>
      rw [hbb] at h
      dsimp only at h
      simp only [Option.some.injEq] at h
      subst h
      intro p hp
      simp only [List.flatten_nil, List.append_nil] at hp
      obtain ⟨sl, hsl, hpin⟩ := List.mem_flatten.mp hp
      obtain ⟨src, hsr, hsome⟩ := mapOpt_mem _ _ _ hsrcs sl hsl
      exact perSrc_shape hsome p hpin
    | some card =>
      rw [hbb] at h
      dsimp only at h
      split at h
      · exact absurd h (by simp)
      · rename_i rels hrels
        simp only [Option.some.injEq] at h
        subst h
        intro p hp
        rcases List.mem_append.mp hp with hp2 | hp2
        · obtain ⟨sl, hsl, hpin⟩ := List.mem_flatten.mp hp2
          obtain ⟨src, hsr, hsome⟩ := mapOpt_mem _ _ _ hsrcs sl hsl
          exact perSrc_shape hsome p hpin
        · obtain ⟨rl, hrl, hpin⟩ := List.mem_flatten.mp hp2
          obtain ⟨dst, hdr, hsome⟩ := mapOpt_mem _ _ _ hrels rl hrl
          exact perRelease_shape (List.mem_range.mp hdr) hbb hsome p hpin

theorem next_boards_shape {b : Board} {n : Nat} {l : List (Board × Move)}
    {p : Board × Move} (h : b.next_boards n = some l) (hp : p ∈ l) :
    StepShape b p.1 := by
  unfold Board.next_boards at h
  split at h
  · simp only [Option.some.injEq] at h
    subst h
    simp at hp
  · exact genBoards_shape h p hp

/-! ### Reachability invariants -/

theorem InvAces_minors_congr {b1 b2 : Board}
    (h : b1.minor_collection_piles = b2.minor_collection_piles) (ha : InvAces b2) :
    InvAces b1 := by
  obtain ⟨hl, hj⟩ := ha
  exact ⟨by rw [h]; exact hl, by intro j hjlt; show (getP b1.minor_collection_piles j).getLast? = _; rw [h]; exact hj j hjlt⟩

theorem reachable_cardMS {b0 b : Board} (h : Reachable b0 b) : cardMS b = cardMS b0 := by
  induction h with
  | base => rfl
  | suckStep hr hs ih => rw [suck_cardMS hs, ih]
  | moveStep hr hn hm ih =>
    obtain ⟨bMid, b2, cs2, m2, hMS, hmin, hs, heq⟩ := next_boards_shape hn hm
    dsimp only at heq
    rw [heq, with_prev_move_cardMS, suck_cardMS hs, hMS, ih]

theorem reachable_aces {b0 b : Board} (h : Reachable b0 b) (ha : InvAces b0) : InvAces b := by
  induction h with
  | base => exact ha
  | suckStep hr hs ih => exact suck_aces hs ih
  | moveStep hr hn hm ih =>
    obtain ⟨bMid, b2, cs2, m2, hMS, hmin, hs, heq⟩ := next_boards_shape hn hm
    dsimp only at heq
    rw [heq]
    have h1 : InvAces bMid := InvAces_minors_congr hmin ih
    have h2 : InvAces b2 := suck_aces hs h1
    exact InvAces_minors_congr (with_prev_move_minors b2 m2) h2

theorem parse_aces {s : String} {b : Board} (h : Board.parse s = some b) : InvAces b := by
  unfold Board.parse at h
  dsimp only at h
  split at h
  · exact absurd h (by simp)
  · simp only [Option.some.injEq] at h
    subst h
    refine ⟨rfl, ?_⟩
    intro j hj
    interval_cases j <;> rfl

theorem getD_replicate_nil : ∀ (k i : Nat), (List.replicate k ([] : List Card)).getD i [] = [] := by
  intro k
  induction k with
  | zero => intro i; rfl
  | succ n ih =>
    intro i
    cases i with
    | zero => rfl
    | succ m =>
      rw [List.replicate_succ, List.getD_cons_succ]
      exact ih m

theorem getD_map_reverse : ∀ (l : List (List Card)) (i : Nat), i < l.length →
    (l.map List.reverse).getD i [] = (l.getD i []).reverse := by
  intro l
  induction l with
  | nil => intro i h; simp at h
  | cons x xs ih =>
    intro i h
    cases i with
    | zero => rfl
    | succ n =>
      simp only [List.map_cons, List.getD_cons_succ]
      exact ih n (by simpa using h)

/-! ## The claims -/

/-- Claim C1, counterexample: the holding slot holds the 2 of Swords while
the Sword foundation shows its ace — exactly the situation in which the
claim says the held card advances into its suit foundation — yet the
Cascade Resolver changes nothing: the held card stays in the slot, nothing
is sucked, and the suit foundation still ends in its ace.  The held card is
in fact never checked against the suit foundations. -/
theorem C1_held_card_suit_counterexample :
    heldTwoBoard.minor_collection_blocked = some (Card.Minor Suit.Sword ⟨2⟩) ∧
    (getP heldTwoBoard.minor_collection_piles 0).head? = some (Card.Minor Suit.Sword ⟨1⟩) ∧
    heldTwoBoard.suck_readies_into_receptacles = some (heldTwoBoard, []) := by
  decide

/-- Claim C1, amended: the held-card phase of a resolver pass checks the
held card ONLY against the two trump stacks, ascending first: it advances
onto trump-ascending exactly when that stack's top is one rank below it,
else onto trump-descending exactly when that stack's top is one rank above
it; the phase never touches the suit foundations or the playing area; there
is no empty-trump-stack bootstrap for the held card (unlike an exposed pile
card, a held major 0 with empty trump-ascending does not advance, since
`lowerTopReady` is false on an empty stack); when the held card advances
the holding slot becomes empty, the card joins the sucked list and the pass
is marked changed, and when neither trump check fires the phase is a no-op. -/
theorem C1_held_card_trump_only (b : Board) (acc : List Card) (ch : Bool) (c : Card)
    (hb : b.minor_collection_blocked = some c) :
    (heldStep (b, acc, ch)).1.minor_collection_piles = b.minor_collection_piles ∧
    (heldStep (b, acc, ch)).1.playing_area = b.playing_area ∧
    (lowerTopReady b c = true →
      heldStep (b, acc, ch) = ({ b with major_lower_stack := c :: b.major_lower_stack, minor_collection_blocked := none }, acc ++ [c], true)) ∧
    (lowerTopReady b c = false → higherTopReady b c = true →
      heldStep (b, acc, ch) = ({ b with major_higher_stack := c :: b.major_higher_stack, minor_collection_blocked := none }, acc ++ [c], true)) ∧
    (lowerTopReady b c = false → higherTopReady b c = false →
      heldStep (b, acc, ch) = (b, acc, ch)) := by
  unfold heldStep
  dsimp only
  rw [hb]
  dsimp only
  by_cases h1 : lowerTopReady b c = true
  · rw [if_pos h1]
    exact ⟨rfl, rfl, fun _ => rfl,
      fun hl _ => absurd h1 (by simp [hl]),
      fun hl _ => absurd h1 (by simp [hl])⟩
  · rw [if_neg h1]
    by_cases h2 : higherTopReady b c = true
    · rw [if_pos h2]
      exact ⟨rfl, rfl, fun hl => absurd hl h1,
        fun _ _ => rfl,
        fun _ hh => absurd h2 (by simp [hh])⟩
    · rw [if_neg h2]
      exact ⟨rfl, rfl, fun hl => absurd hl h1,
        fun _ hh => absurd hh h2,
        fun _ _ => rfl⟩

/-- Witness for the amended C1 at a concrete board: major 5 held over a
trump-ascending stack topped by major 4 advances, emptying the slot. -/
theorem C1_witness :
    heldStep (heldFiveBoard, [], false) = ({ heldFiveBoard with major_lower_stack := Card.Major ⟨5⟩ :: heldFiveBoard.major_lower_stack, minor_collection_blocked := none }, [] ++ [Card.Major ⟨5⟩], true) :=
  (C1_held_card_trump_only heldFiveBoard [] false (Card.Major ⟨5⟩) (by decide)).2.2.1
    (by decide)

/-- Claim C2, evaluation at the failing input: with the holding slot empty,
pile 0 a lone 5 of Swords and pile 1 a lone 6 of Swords (adjacent, and
pile 1 non-empty, so the claim requires the pile-to-pile move `0 → 1`), the
generator returns NO successors at all: the `continue` of the singleton
check in the hold block skips the whole source-pile iteration, killing the
pile-to-pile moves the spec (and the code's own comments) expect. -/
theorem C2_singleton_continue_eval :
    getP lonePairBoard.playing_area 0 = [Card.Minor Suit.Sword ⟨5⟩] ∧
    (getP lonePairBoard.playing_area 1).head? = some (Card.Minor Suit.Sword ⟨6⟩) ∧
    (Card.Minor Suit.Sword ⟨6⟩).is_next_or_prev (Card.Minor Suit.Sword ⟨5⟩) = true ∧
    lonePairBoard.minor_collection_blocked = none ∧
    lonePairBoard.next_boards 5 = some [] := by
  decide

/-- Claim C3: the multiset of cards over the playing area, both trump
stacks, the four suit foundations and the holding slot is the same at every
board reachable from the parsed initial deal by cascade resolutions and
generated moves (so in particular the total card count is conserved). -/
theorem C3_conservation (s : String) (b0 b : Board)
    (_hp : Board.parse s = some b0) (hr : Reachable b0 b) :
    cardMS b = cardMS b0 :=
  reachable_cardMS hr

/-- Witness for C3 at the empty deal. -/
theorem C3_witness : cardMS clearedBoard = cardMS clearedBoard :=
  C3_conservation ("") clearedBoard clearedBoard (by decide) Reachable.base

/-- Claim C4: the Cascade Resolver is idempotent — whenever one invocation
returns (board `b'`, sucked cards), invoking it again on `b'` returns the
same board unchanged and an empty sucked sequence. -/
theorem C4_idempotent (b b' : Board) (cs : List Card)
    (h : b.suck_readies_into_receptacles = some (b', cs)) :
    b'.suck_readies_into_receptacles = some (b', []) :=
  suck_twice h

/-- Witness for C4: a cascade that drains a pile, then a second invocation
that is a no-op. -/
theorem C4_witness :
    cascadeBoard.suck_readies_into_receptacles
        = some (cascadeBoardAfter, [Card.Minor Suit.Sword ⟨2⟩, Card.Minor Suit.Sword ⟨3⟩]) ∧
    cascadeBoardAfter.suck_readies_into_receptacles = some (cascadeBoardAfter, []) :=
  ⟨by decide, C4_idempotent cascadeBoard cascadeBoardAfter
    [Card.Minor Suit.Sword ⟨2⟩, Card.Minor Suit.Sword ⟨3⟩] (by decide)⟩

/-- Claim C5: the stagnation cutoff — with a finite window `n`, at least
`n` recorded moves, and at most one card sucked over the `n` most recent
moves, `next_boards` returns no successors at all; with the unbounded
configuration (`OLD`) the cutoff never fires and generation proceeds. -/
theorem C5_stagnation_cutoff (b : Board) (n : Nat) :
    (n ≠ OLD → n ≤ b.last_n_moves.length →
      ((b.last_n_moves.take n).map Move.num_sucks).sum ≤ MINIMUM_AMT_OF_PROGRESS →
      b.next_boards n = some []) ∧
    b.next_boards OLD = genBoards b := by
  constructor
  · intro h1 h2 h3
    unfold Board.next_boards
    rw [if_pos ⟨h1, h2, h3⟩]
  · unfold Board.next_boards
    rw [if_neg]
    intro hcl
    exact hcl.1 rfl

/-- Witness for C5: a board with five recorded moves, none of which sucked
a card, is cut off under window 5. -/
theorem C5_witness : stagnantBoard.next_boards 5 = some [] :=
  (C5_stagnation_cutoff stagnantBoard 5).1 (by decide) (by decide) (by decide)

/-- Claim C6: a board is terminal exactly when every playing-area pile is
empty; the holding slot and all the foundations play no role in the check. -/
theorem C6_terminal_iff_piles_empty (b : Board) :
    (b.is_done = true ↔ ∀ p ∈ b.playing_area, p = []) ∧
    (∀ oc : Option Card, Board.is_done ({ b with minor_collection_blocked := oc }) = b.is_done) ∧
    (∀ ml mh mp, Board.is_done ({ b with major_lower_stack := ml, major_higher_stack := mh, minor_collection_piles := mp }) = b.is_done) := by
  refine ⟨?_, fun oc => rfl, fun ml mh mp => rfl⟩
  simp only [Board.is_done, List.all_eq_true]
  constructor
  · intro h p hp
    exact List.isEmpty_iff.mp (h p hp)
  · intro h p hp
    exact List.isEmpty_iff.mpr (h p hp)

/-- Witness for C6: the all-piles-empty board with an occupied holding slot
is terminal. -/
theorem C6_witness : Board.is_done heldTwoBoard = true :=
  (C6_terminal_iff_piles_empty heldTwoBoard).1.mpr (by decide)

/-- Claim C7, counterexample: when all four race variants fail, `main`'s
`filter_map` leaves nothing, `min_by_key` yields `None`, and the trailing
`.unwrap()` panics — modelled as `Except.error ()`.  The all-failed case is
a crash, not a normal "no solution" report. -/
theorem C7_all_failed_panics_counterexample :
    mainOutcome (Board × Option Move) [none, none, none, none] = Except.error () := rfl

/-- Claim C7, amended: whenever every race variant's result is `None`, the
aggregation in `main` reaches the `.unwrap()`-on-`None` panic (the error
outcome of the model) instead of reporting "no solution" normally. -/
theorem C7_all_failed_panics (α : Type) (results : List (Option (List α)))
    (h : ∀ r ∈ results, r = none) : mainOutcome α results = Except.error () := by
  have hf : ∀ (rs : List (Option (List α))), (∀ r ∈ rs, r = none) → rs.filterMap id = [] := by
    intro rs
    induction rs with
    | nil => intro _; rfl
    | cons r rs ih =>
      intro hall
      have hr := hall r (List.mem_cons_self r rs)
      subst hr
      rw [List.filterMap_cons_none rfl]
      exact ih (fun x hx => hall x (List.mem_cons_of_mem _ hx))
  have hsel : raceSelect results = none := by
    unfold raceSelect
    rw [hf results h]
    rfl
  unfold mainOutcome
  rw [hsel]

/-- Witness for the amended C7. -/
theorem C7_witness : mainOutcome (Board × Option Move) [none, none] = Except.error () :=
  C7_all_failed_panics (Board × Option Move) [none, none] (by simp)

/-- Claim C8, counterexample: on the input with a blank middle line, the
blank line is NOT skipped — it consumes pile slot 1 (left empty), and the
second non-blank line `3_SWO` lands in pile 2, not pile 1 as the claim
requires. -/
theorem C8_blank_line_counterexample :
    Board.parse blankLineInput = some parsedBlankBoard ∧
    getP parsedBlankBoard.playing_area 1 = [] ∧
    getP parsedBlankBoard.playing_area 2 = [Card.Minor Suit.Sword ⟨3⟩] := by
  decide

/-- Claim C8, amended: parsing zips the raw lines (blank lines included)
with the 11 tableau piles in order: the `i`-th line of the input feeds the
`i`-th pile — a blank line yields an empty pile at its own index rather
than being skipped — lines beyond the 11th are ignored, piles beyond the
last line stay empty, and tokens are pushed in file order so a line's last
token is that pile's exposed card (the pile, top-at-head, is the reverse of
the token list). -/
theorem C8_lines_fill_piles_in_order (s : String) (b : Board) (i : Nat)
    (hp : Board.parse s = some b) (hi : i < NUM_PLAYING_STACKS) :
    (i < (rustLines s.data).length →
      ∃ tk, parseLine ((rustLines s.data).getD i []) = some tk ∧
        getP b.playing_area i = tk.reverse ∧
        (getP b.playing_area i).head? = tk.getLast?) ∧
    ((rustLines s.data).length ≤ i → getP b.playing_area i = []) := by
  unfold Board.parse at hp
  dsimp only at hp
  split at hp
  · exact absurd hp (by simp)
  · rename_i toks htoks
    simp only [Option.some.injEq] at hp
    subst hp
    have hlen : toks.length = min NUM_PLAYING_STACKS (rustLines s.data).length := by
      rw [mapOpt_length _ _ _ htoks, List.length_take]
    constructor
    · intro hil
      have hit : i < toks.length := by
        rw [hlen]
        exact Nat.lt_min.mpr ⟨hi, hil⟩
      obtain ⟨tk, htk, hgd⟩ := mapOpt_getD _ _ _ htoks i
        (by rw [List.length_take]; exact Nat.lt_min.mpr ⟨hi, hil⟩) [] []
      have htake : (List.take NUM_PLAYING_STACKS (rustLines s.data)).getD i []
          = (rustLines s.data).getD i [] := by
        simp [List.getD_eq_getElem?_getD, List.getElem?_take, hi]
      rw [htake] at htk
      have hpile : getP (List.map List.reverse toks
          ++ List.replicate (NUM_PLAYING_STACKS - toks.length) []) i = tk.reverse := by
        show (List.map List.reverse toks
          ++ List.replicate (NUM_PLAYING_STACKS - toks.length) []).getD i [] = tk.reverse
        rw [List.getD_append _ _ _ i (by rw [List.length_map]; exact hit)]
        rw [getD_map_reverse toks i hit, hgd]
      exact ⟨tk, htk, hpile, by rw [hpile, List.head?_reverse]⟩
    · intro hle
      have hit : toks.length ≤ i := by
        rw [hlen]
        exact le_trans (Nat.min_le_right _ _) hle
      show (List.map List.reverse toks
        ++ List.replicate (NUM_PLAYING_STACKS - toks.length) []).getD i [] = []
      rw [List.getD_append_right _ _ _ i (by rw [List.length_map]; exact hit)]
      exact getD_replicate_nil _ _

/-- Witness for the amended C8 at the blank-line input, third line. -/
theorem C8_witness :
    ∃ tk, parseLine ((rustLines blankLineInput.data).getD 2 []) = some tk ∧
      getP parsedBlankBoard.playing_area 2 = tk.reverse ∧
      (getP parsedBlankBoard.playing_area 2).head? = tk.getLast? :=
  (C8_lines_fill_piles_in_order blankLineInput parsedBlankBoard 2 (by decide) (by decide)).1
    (by decide)

/-- Claim C9, counterexample: with major 5 held over a trump-ascending
stack topped by major 4 and the 2 of Swords exposed, a single resolver
invocation first advances the held card (freeing the slot) and then, in a
later pass of the same invocation, pushes the 2 of Swords onto its suit
foundation: the suit foundations do change during an invocation that
started with the slot occupied. -/
theorem C9_suit_push_while_held_counterexample :
    heldFiveBoard.minor_collection_blocked = some (Card.Major ⟨5⟩) ∧
    heldFiveBoard.suck_readies_into_receptacles
        = some (heldFiveBoardAfter, [Card.Major ⟨5⟩, Card.Minor Suit.Sword ⟨2⟩]) ∧
    heldFiveBoardAfter.minor_collection_piles ≠ heldFiveBoard.minor_collection_piles := by
  decide

/-- Claim C9, amended: while the holding slot stays occupied the suit
foundations are frozen — if a resolver invocation starts with a held card
and ends with the slot still occupied then the held card is unchanged and
all four suit foundations are exactly as before; suit-foundation pushes can
happen only in passes after the held card has left the slot for a trump
stack. -/
theorem C9_suit_frame_while_held (b b' : Board) (cs : List Card) (c : Card)
    (h : b.suck_readies_into_receptacles = some (b', cs))
    (hb : b.minor_collection_blocked = some c)
    (hstill : b'.minor_collection_blocked ≠ none) :
    b'.minor_collection_piles = b.minor_collection_piles ∧
    b'.minor_collection_blocked = some c := by
  rcases suckFuel_blockedFrame (measureB b + 1) b [] (b', cs) c h hb with hnone | ⟨hsome, hmins⟩
  · exact absurd hnone hstill
  · exact ⟨hmins, hsome⟩

/-- Witness for the amended C9: a held 2 of Swords that cannot advance
leaves the suit foundations untouched. -/
theorem C9_witness :
    heldTwoBoard.minor_collection_piles = heldTwoBoard.minor_collection_piles ∧
    heldTwoBoard.minor_collection_blocked = some (Card.Minor Suit.Sword ⟨2⟩) :=
  C9_suit_frame_while_held heldTwoBoard heldTwoBoard [] (Card.Minor Suit.Sword ⟨2⟩)
    (by decide) (by decide) (by decide)

/-- Claim C10: at every board reachable from a parsed deal there are
exactly four suit foundations, each non-empty with its suit's ace still at
the bottom — parsing seeds the aces and nothing ever pops a suit
foundation, so the resolver's `minor_collection_pile.last().unwrap()` reads
a non-empty pile. -/
theorem C10_suit_foundations_never_empty (s : String) (b0 b : Board)
    (hp : Board.parse s = some b0) (hr : Reachable b0 b) :
    b.minor_collection_piles.length = 4 ∧
    ∀ j, j < 4 → getP b.minor_collection_piles j ≠ [] ∧
      (getP b.minor_collection_piles j).getLast? = some (aceAt j) := by
  have ha := reachable_aces hr (parse_aces hp)
  obtain ⟨hl, hj⟩ := ha
  refine ⟨hl, fun j hjl => ⟨?_, hj j hjl⟩⟩
  intro hnil
  have hlast := hj j hjl
  rw [hnil] at hlast
  simp at hlast

/-- Witness for C10 at the empty deal's parse result. -/
theorem C10_witness :
    clearedBoard.minor_collection_piles.length = 4 ∧
    ∀ j, j < 4 → getP clearedBoard.minor_collection_piles j ≠ [] ∧
      (getP clearedBoard.minor_collection_piles j).getLast? = some (aceAt j) :=
  C10_suit_foundations_never_empty ("") clearedBoard clearedBoard (by decide) Reachable.base

end Solsolver